import Mathlib

/-!
# Semblance link/override resolution engine — shallow embedding

A shallow embedding of the core of the `semblance` mock-API generator:
the link metadata DSL (`src/semblance/links.py`), the plugin registry
(`src/semblance/plugins.py`), the constraint-resolution engine
(`src/semblance/resolver.py`), the override-evaluation / factory layer
(`src/semblance/factory.py`), and the endpoint validation pass
(`src/semblance/validation.py`).

Modelling conventions:
* Python values dumped from validated input models become the inductive
  `Value`; `None` (both a stored null and a missing key) is `Value.vnull`,
  matching `dict.get` + `is not None` checks in the source.
* `datetime` points are rational epoch seconds (`ℚ`); `date` values are
  integer day numbers, combined with midnight by `toDatetime` exactly as
  `_to_datetime` does with `datetime.combine(value, datetime.min.time())`.
* `random.Random` instances are `RngState` values held in a `Store`;
  id 0 is the process-global `random` module, ids ≥ 1 are `random.Random(seed)`
  objects allocated (one per `resolve_overrides` call) in order.
  `Random.uniform(a, b)` is modelled after CPython's
  `a + (b - a) * self.random()` with a concrete `random()` in `[0, 1)`.
* Collaborators that the spec treats as black boxes are `Env` parameters:
  `parseIso` abstracts `datetime.fromisoformat` (string parsing), and
  `genField` abstracts Polyfactory's per-field filler generation
  (deterministic in the RNG state handed to it, which is what
  `ModelFactory.seed_random` guarantees).
-/

namespace Semblance

/-- A dumped Python value (result of `model_dump()` / a generated field value).
Objects are association chains (`vobjCons`/`vobjNil`) so that decidable
equality is derivable. -/
inductive Value where
  | vnull
  | vbool (b : Bool)
  | vint (n : Int)
  | vstr (s : String)
  | vdt (t : ℚ)
  | vdate (d : Int)
  | vobjNil
  | vobjCons (name : String) (v : Value) (rest : Value)
deriving DecidableEq

/-- The dict form of the validated request input (`input_instance.model_dump()`). -/
abbrev InputData := List (String × Value)

/-- `input_data.get(k)`: `vnull` both for a missing key and a stored null,
matching Python where both make `dict.get` return `None`. -/
def getInput (d : InputData) (k : String) : Value :=
  match d.lookup k with
  | some v => v
  | none => .vnull

/-- State of one `random.Random` instance (or of the global `random` module):
the seed it was created from and how many draws it has produced. -/
structure RngState where
  seed : Nat
  idx : Nat
deriving DecidableEq

/-- `random.Random(seed)`: a freshly seeded generator. -/
def mkSeeded (s : Nat) : RngState := ⟨s, 0⟩

/-- One draw of `random.random()`: a rational in `[0, 1)` determined by the
state, advancing the state.  The exact distribution of CPython's Mersenne
Twister is irrelevant to the verified properties; what matters is that the
draw is a pure function of the state and lies in `[0, 1)`. -/
def randomUnit (r : RngState) : ℚ × RngState :=
  (((r.seed + 2654435761 * r.idx + 40503 * r.idx * r.idx) % 1000000 : ℕ) / 1000000,
   ⟨r.seed, r.idx + 1⟩)

/-- CPython `Random.uniform(a, b) = a + (b - a) * self.random()`. -/
def uniform (a b : ℚ) (r : RngState) : ℚ × RngState :=
  let (u, r') := randomUnit r
  (a + (b - a) * u, r')

/-- The collection of live RNG objects during one build: the global `random`
module (`global`, id 0) and the `random.Random(seed)` instances allocated so
far (`allocated`, ids 1, 2, …). -/
structure Store where
  globalRng : RngState
  allocated : List RngState
deriving DecidableEq

def Store.get (st : Store) : Nat → RngState
  | 0 => st.globalRng
  | i + 1 => st.allocated.getD i (mkSeeded 0)

def Store.set (st : Store) : Nat → RngState → Store
  | 0, r => ⟨r, st.allocated⟩
  | i + 1, r => ⟨st.globalRng, st.allocated.set i r⟩

/-- Allocate a fresh `random.Random` object, returning its id. -/
def Store.alloc (st : Store) (r : RngState) : Store × Nat :=
  (⟨st.globalRng, st.allocated ++ [r]⟩, st.allocated.length + 1)

/-- Return value of a custom link's `resolve(input_data, rng)`: either a plain
value or a zero-argument callable (`pthunk v` models a closure that returns
`v` when invoked), per the documented `LinkProtocol` contract. -/
inductive PRet where
  | pval (v : Value)
  | pthunk (v : Value)
deriving DecidableEq

/-- The `then_link` of a `WhenInput`: `FromInput | DateRangeFrom` (links.py). -/
inductive InnerLink where
  | ifromInput (f : String)
  | idateRange (s e : String)
deriving DecidableEq

/-- One item of a field's `Annotated[...]` metadata tuple: a built-in link
(`links.py` dataclasses), a custom link instance (`mPlugin`, carrying the
registered type's id and its `resolve` function), or unrecognized metadata
(`mJunk`). -/
inductive LinkMeta where
  | mFromInput (f : String)
  | mDateRangeFrom (s e : String)
  | mWhenInput (cf : String) (cv : Value) (inner : InnerLink)
  | mComputedFrom (deps : List String) (fn : List Value → Value)
  | mFromHeader (n : String)
  | mFromCookie (n : String)
  | mPlugin (tid : Nat) (resolveFn : InputData → RngState → Option PRet × RngState)
  | mJunk (tag : Nat)

/-- `isinstance(meta, (FromInput, DateRangeFrom, WhenInput, ComputedFrom,
FromHeader, FromCookie))` (links.py, get_field_metadata). -/
def LinkMeta.isBuiltin : LinkMeta → Bool
  | .mFromInput _ => true
  | .mDateRangeFrom _ _ => true
  | .mWhenInput _ _ _ => true
  | .mComputedFrom _ _ => true
  | .mFromHeader _ => true
  | .mFromCookie _ => true
  | _ => false

/-- `plugins.is_registered(meta)`: `type(meta) in _REGISTRY`, with the registry
modelled as the list `reg` of registered type ids. -/
def isRegisteredM (reg : List Nat) : LinkMeta → Bool
  | .mPlugin tid _ => reg.contains tid
  | _ => false

/-- The scan over `hint.__metadata__` in `get_field_metadata`: the first item
that is a built-in link or a registered custom link. -/
def findMeta (reg : List Nat) : List LinkMeta → Option LinkMeta
  | [] => none
  | m :: ms => if m.isBuiltin || isRegisteredM reg m then some m else findMeta reg ms

/-- An output Pydantic model: its fields in declaration order.  A `scalar`
field has no nested-model annotation (`_get_nested_model` returns `None`);
a `nestedF` field's annotation contains the nested model `sub`.  Both carry
the field's `Annotated` metadata items. -/
inductive OSchema where
  | nil
  | scalar (name : String) (metas : List LinkMeta) (rest : OSchema)
  | nestedF (name : String) (metas : List LinkMeta) (sub : OSchema) (rest : OSchema)

/-- Field names in declaration order (`model_fields` keys). -/
def schemaNames : OSchema → List String
  | .nil => []
  | .scalar n _ r => n :: schemaNames r
  | .nestedF n _ _ r => n :: schemaNames r

/-- Look a field up by name: its metadata items and its nested model (if any).
First match wins, as in a dict keyed by field name. -/
def findField : OSchema → String → Option (List LinkMeta × Option OSchema)
  | .nil, _ => none
  | .scalar n ms r, k => if n = k then some (ms, none) else findField r k
  | .nestedF n ms sub r, k => if n = k then some (ms, some sub) else findField r k

/-- `links.get_field_metadata(model_class, field_name)`: `None` when the field
does not exist, otherwise the first recognized link among the field's
`Annotated` metadata (a field without `__metadata__` has the empty list). -/
def get_field_metadata (reg : List Nat) (m : OSchema) (field : String) : Option LinkMeta :=
  match findField m field with
  | none => none
  | some (ms, _) => findMeta reg ms

/-- The request context for `FromHeader`/`FromCookie` links
(`.headers.get(name)` / `.cookies.get(name)`). -/
structure Req where
  headers : List (String × String)
  cookies : List (String × String)

/-- The collaborators the spec treats as black boxes:
`parseIso` models `datetime.fromisoformat` (ISO-string parsing inside
`_to_datetime`), and `genField` models Polyfactory's filler generation for
one unlinked field (pure in the RNG state, which is what seeding makes true). -/
structure Env where
  parseIso : String → Option ℚ
  genField : String → RngState → Value × RngState

/-- `resolver._to_datetime`: datetime as-is, date combined with midnight,
ISO strings via the (abstracted) parser, anything else (and `None`) rejected. -/
def toDatetime (env : Env) : Value → Option ℚ
  | .vdt t => some t
  | .vdate d => some (d * 86400)
  | .vstr s => env.parseIso s
  | _ => none

/-- The body of the closure produced by `_make_random_datetime_closure`:
`delta = e - s; if delta <= 0: return s; sec = rng.uniform(0, delta); s + sec`. -/
def rangeThunkEval (s e : ℚ) (r : RngState) : ℚ × RngState :=
  let delta := e - s
  if delta ≤ 0 then (s, r)
  else
    let (sec, r') := uniform 0 delta r
    (s + sec, r')

/-- The override map produced by `resolve_overrides`: field name to entry, in
insertion order.  Entry shapes mirror the source: a direct value, the
`_make_random_datetime_closure` thunk (recording which RNG object it closed
over and the parsed endpoints), a generic zero-argument callable returning a
fixed value (as a plugin may return), a nested bundle
`{"_nested": model, "_overrides": dict}`, and a computed marker
`{"_computed": fields, "_fn": fn}`. -/
inductive Overrides where
  | onil
  | oval (k : String) (v : Value) (rest : Overrides)
  | othunkRange (k : String) (rid : Nat) (s e : ℚ) (rest : Overrides)
  | othunkConst (k : String) (v : Value) (rest : Overrides)
  | onested (k : String) (sub : OSchema) (inner : Overrides) (rest : Overrides)
  | ocomputed (k : String) (deps : List String) (fn : List Value → Value) (rest : Overrides)

/-- A view of one override-map entry, for stating lookups. -/
inductive OEntryV where
  | oval (v : Value)
  | othunkRange (rid : Nat) (s e : ℚ)
  | othunkConst (v : Value)
  | onested (sub : OSchema) (ov : Overrides)
  | ocomputed (deps : List String) (fn : List Value → Value)

/-- Cons one entry onto an override map. -/
def Overrides.consEntry (k : String) (e : OEntryV) (rest : Overrides) : Overrides :=
  match e with
  | .oval v => .oval k v rest
  | .othunkRange rid s e => .othunkRange k rid s e rest
  | .othunkConst v => .othunkConst k v rest
  | .onested sub inner => .onested k sub inner rest
  | .ocomputed deps fn => .ocomputed k deps fn rest

/-- `overrides[name]` membership: the entry bound to `k`, if any. -/
def Overrides.lookup : Overrides → String → Option OEntryV
  | .onil, _ => none
  | .oval n v rest, k => if n = k then some (.oval v) else rest.lookup k
  | .othunkRange n rid s e rest, k =>
      if n = k then some (.othunkRange rid s e) else rest.lookup k
  | .othunkConst n v rest, k => if n = k then some (.othunkConst v) else rest.lookup k
  | .onested n sub inner rest, k =>
      if n = k then some (.onested sub inner) else rest.lookup k
  | .ocomputed n deps fn rest, k =>
      if n = k then some (.ocomputed deps fn) else rest.lookup k

/-- Keys of an override map, in order. -/
def ovKeys : Overrides → List String
  | .onil => []
  | .oval n _ rest => n :: ovKeys rest
  | .othunkRange n _ _ _ rest => n :: ovKeys rest
  | .othunkConst n _ rest => n :: ovKeys rest
  | .onested n _ _ rest => n :: ovKeys rest
  | .ocomputed n _ _ rest => n :: ovKeys rest

/-- The RNG ids closed over by every range thunk in the tree, nested bundles
included. -/
def ovThunkIds : Overrides → List Nat
  | .onil => []
  | .oval _ _ rest => ovThunkIds rest
  | .othunkRange _ rid _ _ rest => rid :: ovThunkIds rest
  | .othunkConst _ _ rest => ovThunkIds rest
  | .onested _ _ inner rest => ovThunkIds inner ++ ovThunkIds rest
  | .ocomputed _ _ _ rest => ovThunkIds rest

/-- The RNG ids closed over by the range thunks of one map level only
(not descending into nested bundles). -/
def levelThunkIds : Overrides → List Nat
  | .onil => []
  | .oval _ _ rest => levelThunkIds rest
  | .othunkRange _ rid _ _ rest => rid :: levelThunkIds rest
  | .othunkConst _ _ rest => levelThunkIds rest
  | .onested _ _ _ rest => levelThunkIds rest
  | .ocomputed _ _ _ rest => levelThunkIds rest

/-- The per-field dispatch of `resolve_overrides` for a non-nested field
(lines 105–159 of resolver.py): extract the link metadata from the field's
`Annotated` items and resolve it against the input (and request context).
`rngId` identifies the RNG object the enclosing call created (closures capture
it); `r` is that object's current state, returned updated (only a custom
link's `resolve(input_data, rng)` consumes randomness here). -/
def resolveScalar (env : Env) (reg : List Nat) (metas : List LinkMeta)
    (input : InputData) (req : Option Req) (rngId : Nat) (r : RngState) :
    Option OEntryV × RngState :=
  match findMeta reg metas with
  | none => (none, r)
  | some m =>
    match m with
    | .mFromHeader n =>
        match req with
        | some rq =>
            match rq.headers.lookup n with
            | some v => (some (.oval (.vstr v)), r)
            | none => (none, r)
        | none => (none, r)
    | .mFromCookie n =>
        match req with
        | some rq =>
            match rq.cookies.lookup n with
            | some v => (some (.oval (.vstr v)), r)
            | none => (none, r)
        | none => (none, r)
    | .mFromInput f =>
        let v := getInput input f
        if v = .vnull then (none, r) else (some (.oval v), r)
    | .mWhenInput cf cv inner =>
        if getInput input cf = cv then
          match inner with
          | .ifromInput f =>
              let v := getInput input f
              if v = .vnull then (none, r) else (some (.oval v), r)
          | .idateRange sf ef =>
              let sv := getInput input sf
              let ev := getInput input ef
              if sv = .vnull then (none, r)
              else if ev = .vnull then (none, r)
              else
                match toDatetime env sv, toDatetime env ev with
                | some sq, some eq => (some (.othunkRange rngId sq eq), r)
                | _, _ => (none, r)
        else (none, r)
    | .mDateRangeFrom sf ef =>
        let sv := getInput input sf
        let ev := getInput input ef
        if sv = .vnull then (none, r)
        else if ev = .vnull then (none, r)
        else
          match toDatetime env sv, toDatetime env ev with
          | some sq, some eq => (some (.othunkRange rngId sq eq), r)
          | _, _ => (none, r)
    | .mComputedFrom deps fn => (some (.ocomputed deps fn), r)
    | .mPlugin tid f =>
        if reg.contains tid then
          let (ret, r') := f input r
          match ret with
          | some (.pval v) => (some (.oval v), r')
          | some (.pthunk v) => (some (.othunkConst v), r')
          | none => (none, r')
        else (none, r)
    | .mJunk _ => (none, r)

/-- The field loop of `resolve_overrides`: nested-model fields recurse into a
fresh `resolve_overrides` call (producing a `{_nested, _overrides}` bundle)
before any metadata check; other fields dispatch on their link metadata.
The source's recursive `resolve_overrides(nested_model, …, seed=seed, …)`
call — which seeds an RNG of its own at entry — is inlined in the `nestedF`
case (see `resolveFields_nested`) so that the recursion is structural. -/
def resolveFields (env : Env) (reg : List Nat) (input : InputData)
    (seed : Option Nat) (req : Option Req) : OSchema → Nat → Store → Overrides × Store
  | .nil, _, st => (.onil, st)
  | .nestedF name _ sub rest, rngId, st =>
      let (nov, st₁) :=
        match seed with
        | some s =>
            let (st', nid) := st.alloc (mkSeeded s)
            resolveFields env reg input seed req sub nid st'
        | none => resolveFields env reg input seed req sub 0 st
      let (rov, st₂) := resolveFields env reg input seed req rest rngId st₁
      (.onested name sub nov rov, st₂)
  | .scalar name metas rest, rngId, st =>
      let (ent, r') := resolveScalar env reg metas input req rngId (st.get rngId)
      let st₁ := st.set rngId r'
      let (rov, st₂) := resolveFields env reg input seed req rest rngId st₁
      match ent with
      | some e => (.consEntry name e rov, st₂)
      | none => (rov, st₂)

/-- `resolver.resolve_overrides(output_model, input_model, input_instance,
seed, request)`: seed an RNG for this call (`random.Random(seed)` when a seed
is given — allocated in the store — else the global `random` module, id 0),
then walk the fields.  The `input_model` parameter of the source is unused by
the resolution logic and omitted. -/
def resolve_overrides (env : Env) (reg : List Nat) (input : InputData)
    (seed : Option Nat) (req : Option Req) (out : OSchema) (st : Store) :
    Overrides × Store :=
  match seed with
  | some s =>
      let (st', rngId) := st.alloc (mkSeeded s)
      resolveFields env reg input seed req out rngId st'
  | none => resolveFields env reg input seed req out 0 st

/-- A fully evaluated value map (`result` in `_evaluate_overrides`). -/
abbrev ValMap := List (String × Value)

/-- One deferred computed entry: key, dependency fields, combine function. -/
abbrev CompEntry := String × List String × (List Value → Value)

/-- `[result[f] for f in deps]`, as the partial lookup it is in Python:
`none` models the `KeyError` raised when a dependency key is absent. -/
def lookupAll (res : ValMap) : List String → Option (List Value)
  | [] => some []
  | d :: ds =>
      match res.lookup d with
      | none => none
      | some v =>
          match lookupAll res ds with
          | none => none
          | some vs => some (v :: vs)

/-- The second pass of `_evaluate_overrides`: computed-marker entries in map
order, each `result[key] = fn(*dep_values)` written back before the next
entry is evaluated.  `none` models the `KeyError` on a missing dependency. -/
def evalComputed : List CompEntry → ValMap → Option ValMap
  | [], res => some res
  | (k, deps, fn) :: rest, res =>
      match lookupAll res deps with
      | none => none
      | some vs => evalComputed rest (res ++ [(k, fn vs)])

/-- `polyfactory` `ModelFactory.create_factory(model).build(**resolved)`
as the spec's black-box factory contract: every field present in `resolved`
is set to exactly that value; every other field is filled by the generator
(`env.genField`), threading the factory's RNG state. -/
def factoryBuild (env : Env) (resolved : ValMap) : OSchema → RngState → Value × RngState
  | .nil, r => (.vobjNil, r)
  | .scalar name _ rest, r =>
      let (v, r₁) :=
        match resolved.lookup name with
        | some v => (v, r)
        | none => env.genField name r
      let (restV, r₂) := factoryBuild env resolved rest r₁
      (.vobjCons name v restV, r₂)
  | .nestedF name _ _ rest, r =>
      let (v, r₁) :=
        match resolved.lookup name with
        | some v => (v, r)
        | none => env.genField name r
      let (restV, r₂) := factoryBuild env resolved rest r₁
      (.vobjCons name v restV, r₂)

/-- Pass one of `_evaluate_overrides`: resolve direct values, invoke callables
(range thunks and plugin-returned closures), build nested bundles, and collect
the computed markers (in order) for pass two.  The source's recursive
`_evaluate_overrides(nested_overrides, seed=seed)` call is inlined in the
`onested` case (see `evalPass1_nested`) so that the recursion is structural. -/
def evalPass1 (env : Env) (seed : Option Nat) :
    Overrides → Store → Option (ValMap × List CompEntry) × Store
  | .onil, st => (some ([], []), st)
  | .oval k v rest, st =>
      match evalPass1 env seed rest st with
      | (none, st') => (none, st')
      | (some (res, comp), st') => (some ((k, v) :: res, comp), st')
  | .othunkConst k v rest, st =>
      match evalPass1 env seed rest st with
      | (none, st') => (none, st')
      | (some (res, comp), st') => (some ((k, v) :: res, comp), st')
  | .othunkRange k rid s e rest, st =>
      let (t, r') := rangeThunkEval s e (st.get rid)
      let st₁ := st.set rid r'
      match evalPass1 env seed rest st₁ with
      | (none, st') => (none, st')
      | (some (res, comp), st') => (some ((k, .vdt t) :: res, comp), st')
  | .onested k sub inner rest, st =>
      let (nres?, st') :=
        match evalPass1 env seed inner st with
        | (none, st₀) => (none, st₀)
        | (some (nres, ncomp), st₀) => (evalComputed ncomp nres, st₀)
      match nres? with
      | none => (none, st')
      | some nres =>
          let (inst, st₂) :=
            match seed with
            | some s => ((factoryBuild env nres sub (mkSeeded s)).1, st')
            | none =>
                let (v, g') := factoryBuild env nres sub (st'.get 0)
                (v, st'.set 0 g')
          match evalPass1 env seed rest st₂ with
          | (none, st₃) => (none, st₃)
          | (some (res, comp), st₃) => (some ((k, inst) :: res, comp), st₃)
  | .ocomputed k deps fn rest, st =>
      match evalPass1 env seed rest st with
      | (none, st') => (none, st')
      | (some (res, comp), st') => (some (res, (k, deps, fn) :: comp), st')

/-- `factory._evaluate_overrides(overrides, seed)`: evaluate every
non-computed entry in map order (pass one), then the computed markers in map
order (pass two).  `none` models the `KeyError` a computed entry raises on a
missing dependency.  The store carries the RNG objects the thunks closed over
(invoking a range thunk consumes its captured RNG); a nested bundle is
recursively evaluated and then built by a nested factory, which is seeded via
`seed_random(seed)` when a seed is given and otherwise draws from ambient
(global, id 0) randomness. -/
def evalOverrides (env : Env) (seed : Option Nat) (ov : Overrides) (st : Store) :
    Option ValMap × Store :=
  match evalPass1 env seed ov st with
  | (none, st') => (none, st')
  | (some (res, comp), st') => (evalComputed comp res, st')

/-- `instance.field` on a built object. -/
def objGet : Value → String → Option Value
  | .vobjCons n v rest, k => if n = k then some v else objGet rest k
  | _, _ => none

/-- `factory.build_one(output_model, input_model, input_instance, seed)`:
resolve overrides (no request context), evaluate them, and build the instance
with a factory that is seeded via `seed_random(seed)` when a seed is given and
otherwise draws from ambient (global) randomness.  `g` is the state of the
process-global `random` module when the call starts; the first component is
`none` when override evaluation raises (computed-marker `KeyError`). -/
def build_one (env : Env) (reg : List Nat) (out : OSchema) (input : InputData)
    (seed : Option Nat) (g : RngState) : Option Value × Store :=
  let st : Store := ⟨g, []⟩
  let (ov, st₁) := resolve_overrides env reg input seed none out st
  let (res?, st₂) := evalOverrides env seed ov st₁
  match res? with
  | none => (none, st₂)
  | some resolved =>
      match seed with
      | some s => (some (factoryBuild env resolved out (mkSeeded s)).1, st₂)
      | none =>
          let (v, g') := factoryBuild env resolved out (st₂.get 0)
          (some v, st₂.set 0 g')

/-! ## Validation pass (`validation.py`) -/

/-- The input model as the validation pass sees it: its `__name__` and its
`model_fields` keys. -/
structure InModel where
  name : String
  fields : List String

/-- Python `repr` of a field/model name (`{x!r}` in the f-strings):
single quotes around the text.  Names containing quote characters would be
escaped differently by CPython; the verified schemas use plain names. -/
def pyRepr (s : String) : String := "\u0027" ++ s ++ "\u0027"

/-- The `FromInput` error f-string of `_validate_output_links`. -/
def errFromInput (method path fp f inName : String) : String :=
  method ++ " " ++ path ++ ": output field " ++ pyRepr fp ++ " uses FromInput(" ++
    pyRepr f ++ ") " ++ "but input model " ++ pyRepr inName ++ " has no field " ++ pyRepr f

/-- The `DateRangeFrom` error f-string (one per dangling endpoint name). -/
def errDateRange (method path fp attr nm inName : String) : String :=
  method ++ " " ++ path ++ ": output field " ++ pyRepr fp ++ " uses DateRangeFrom " ++
    "with " ++ attr ++ "=" ++ pyRepr nm ++ " but input model " ++ pyRepr inName ++
    " has no field " ++ pyRepr nm

/-- The `WhenInput` condition-field error f-string. -/
def errWhenCond (method path fp cf inName : String) : String :=
  method ++ " " ++ path ++ ": output field " ++ pyRepr fp ++
    " uses WhenInput(condition_field=" ++ pyRepr cf ++ ") " ++
    "but input model " ++ pyRepr inName ++ " has no field " ++ pyRepr cf

/-- The `WhenInput(then_link=FromInput(...))` error f-string. -/
def errWhenFrom (method path fp f inName : String) : String :=
  method ++ " " ++ path ++ ": output field " ++ pyRepr fp ++
    " WhenInput(then_link=FromInput(" ++ pyRepr f ++ ")) " ++
    "but input model " ++ pyRepr inName ++ " has no field " ++ pyRepr f

/-- The `WhenInput(then_link=DateRangeFrom)` error f-string. -/
def errWhenRange (method path fp nm inName : String) : String :=
  method ++ " " ++ path ++ ": output field " ++ pyRepr fp ++
    " WhenInput(then_link=DateRangeFrom) " ++ "references " ++ pyRepr nm ++
    " but input model " ++ pyRepr inName ++ " has no field " ++ pyRepr nm

/-- The `ComputedFrom` error f-string (one per dangling dependency). -/
def errComputed (method path fp dep outName : String) : String :=
  method ++ " " ++ path ++ ": output field " ++ pyRepr fp ++ " uses ComputedFrom " ++
    "with dependency " ++ pyRepr dep ++ " but output model " ++ pyRepr outName ++
    " has no field " ++ pyRepr dep

/-- The link checks of `_validate_output_links` for one field whose metadata
resolved to `m` (fp is the dotted field path).  `FromHeader`, `FromCookie` and
custom links get no input-field validation. -/
def metaErrs (inM : InModel) (outName : String) (outNames : List String)
    (path method fp : String) : LinkMeta → List String
  | .mFromInput f =>
      if inM.fields.contains f then [] else [errFromInput method path fp f inM.name]
  | .mDateRangeFrom s e =>
      (if inM.fields.contains s then [] else [errDateRange method path fp "start" s inM.name]) ++
      (if inM.fields.contains e then [] else [errDateRange method path fp "end" e inM.name])
  | .mWhenInput cf _ inner =>
      (if inM.fields.contains cf then [] else [errWhenCond method path fp cf inM.name]) ++
      (match inner with
       | .ifromInput f =>
           if inM.fields.contains f then [] else [errWhenFrom method path fp f inM.name]
       | .idateRange s e =>
           (if inM.fields.contains s then [] else [errWhenRange method path fp s inM.name]) ++
           (if inM.fields.contains e then [] else [errWhenRange method path fp e inM.name]))
  | .mComputedFrom deps _ =>
      deps.flatMap fun dep =>
        if outNames.contains dep then [] else [errComputed method path fp dep outName]
  | _ => []

/-- The field loop of `_validate_output_links`: `output_fields` (the names of
the level being validated) is fixed at entry; a field with no recognized link
metadata recurses into its nested model (if any) with a dotted prefix.  The
source's recursive `_validate_output_links` call is inlined in the `nestedF`
no-metadata case (see `validateOutputLinks` and `validateFields_nested`) so
that the recursion is structural. -/
def validateFields (reg : List Nat) (inM : InModel) (path method : String)
    (outName : String) : List String → String → OSchema → List String
  | _, _, .nil => []
  | outNames, pfx, .scalar n metas rest =>
      (match findMeta reg metas with
       | none => []
       | some m => metaErrs inM outName outNames path method (pfx ++ n) m) ++
      validateFields reg inM path method outName outNames pfx rest
  | outNames, pfx, .nestedF n metas sub rest =>
      (match findMeta reg metas with
       | none =>
           validateFields reg inM path method outName (schemaNames sub)
             (pfx ++ n ++ ".") sub
       | some m => metaErrs inM outName outNames path method (pfx ++ n) m) ++
      validateFields reg inM path method outName outNames pfx rest

/-- `validation._validate_output_links(output_model, input_model, path,
method, errors, prefix)`: the errors appended, in order.  `outName` is the
output model's `__name__` (used in `ComputedFrom` messages). -/
def validateOutputLinks (reg : List Nat) (inM : InModel) (path method : String)
    (outName : String) (out : OSchema) (pfx : String) : List String :=
  validateFields reg inM path method outName (schemaNames out) pfx out

/-- The output annotation of an endpoint: a single model, `list[Model]`, or
an annotation from which `get_output_model_for_type` can extract no model. -/
inductive OutAnn where
  | single (name : String) (m : OSchema)
  | listOf (name : String) (m : OSchema)
  | invalid

/-- `resolver.get_output_model_for_type`: the inner model for `list[T]`,
the model itself for a single model, else `None`. -/
def getOutputModel : OutAnn → Option (String × OSchema)
  | .single n m => some (n, m)
  | .listOf n m => some (n, m)
  | .invalid => none

/-- One registered endpoint spec as the validation pass reads it
(`path`, `methods`, `input_model`, `output_annotation`); `none` for the
output annotation is a DELETE-style endpoint without output. -/
structure EndpointSpec where
  path : String
  methods : List String
  inModel : InModel
  outAnn : Option OutAnn

/-- `(methods[0] or "GET").upper()`.  The source indexes `methods[0]`
unconditionally and would raise `IndexError` on an empty list; validated
specs always carry at least one method, and the `[] => "GET"` branch here is
never exercised by the theorems. -/
def firstMethodUpper : List String → String
  | [] => "GET"
  | m :: _ => (if m = "" then "GET" else m).toUpper

/-- `validation.validate_specs(specs)`: the batch of error strings collected
over all specs, skipping specs without output and specs whose output
annotation yields no model. -/
def validate_specs (reg : List Nat) (specs : List EndpointSpec) : List String :=
  specs.flatMap fun sp =>
    match sp.outAnn with
    | none => []
    | some ann =>
        match getOutputModel ann with
        | none => []
        | some (outName, out) =>
            validateOutputLinks reg sp.inModel sp.path (firstMethodUpper sp.methods)
              outName out ""

/-! ## Concrete instances used by witnesses and counterexamples -/

/-- Concrete collaborator environment for witnesses: no string parses as a
datetime; the filler generator emits the draw index as an integer. -/
def envW : Env := ⟨fun _ => none, fun _ r => (.vint r.idx, ⟨r.seed, r.idx + 1⟩)⟩

/-- Concrete validated input for witnesses. -/
def inW : InputData :=
  [("src", .vstr "hello"), ("cond", .vbool true), ("s", .vdt 5), ("e", .vdt 3)]

/-- Concrete output schema for the C1 witness. -/
def outW1 : OSchema := .scalar "copy" [.mFromInput "src"] (.scalar "other" [] .nil)

/-- Concrete output schema for the C6 witness. -/
def outW6 : OSchema :=
  .scalar "status" [.mWhenInput "cond" (.vbool true) (.ifromInput "src")] .nil

/-- Concrete input with a proper range for the C2 witness. -/
def inW2 : InputData := [("s", .vdt 3), ("e", .vdt 5)]

/-- Concrete output schema with a range-linked field. -/
def outW2 : OSchema := .scalar "ts" [.mDateRangeFrom "s" "e"] .nil

/-- Concrete output schema with a single range-linked field, used against the
degenerate input `inW` (`s = 5`, `e = 3`, so `end <= start`). -/
def outW8 : OSchema := .scalar "ts" [.mDateRangeFrom "s" "e"] .nil

/-- A custom link whose `resolve` returns a zero-argument callable (permitted
by the documented `LinkProtocol`: "Return the override value for the field,
or a callable that returns the value when invoked"). -/
def pluginThunkFn : InputData → RngState → Option PRet × RngState :=
  fun _ r => (some (.pthunk (.vstr "ok")), r)

/-- Prepend direct-value entries onto an override map. -/
def ovalsOf : ValMap → Overrides → Overrides
  | [], tail => tail
  | (k, v) :: rest, tail => .oval k v (ovalsOf rest tail)

/-- Concrete value map and combine functions for the C10 witness. -/
def addAllW (vs : List Value) : Value :=
  .vint (vs.foldl (fun a v => match v with | .vint n => a + n | _ => a) 0)

/-- Concrete nested output schema for the C4 counterexample: a top-level
range field and a nested model holding another range field. -/
def outW4 : OSchema :=
  .scalar "ts" [.mDateRangeFrom "s" "e"]
    (.nestedF "sub" [] (.scalar "ts2" [.mDateRangeFrom "s" "e"] .nil) .nil)

/-- The fields of an output model as a list (name, metadata, nested model). -/
def fieldsOf : OSchema → List (String × List LinkMeta × Option OSchema)
  | .nil => []
  | .scalar n ms rest => (n, ms, none) :: fieldsOf rest
  | .nestedF n ms sub rest => (n, ms, some sub) :: fieldsOf rest

/-- The errors one field of `_validate_output_links` contributes. -/
def perFieldErrs (reg : List Nat) (inM : InModel) (path method outName : String)
    (outNames : List String) (pfx : String) :
    String × List LinkMeta × Option OSchema → List String
  | (n, metas, subOpt) =>
      match findMeta reg metas with
      | none =>
          match subOpt with
          | some sub =>
              validateFields reg inM path method outName (schemaNames sub)
                (pfx ++ n ++ ".") sub
          | none => []
      | some m => metaErrs inM outName outNames path method (pfx ++ n) m

/-- Concrete input model and output schema for the C7 witness. -/
def inMW : InModel := ⟨"In", ["a", "b"]⟩

/-- Output schema with exactly one violating `FromInput("typo")` field. -/
def outW7 : OSchema := .scalar "name" [.mFromInput "typo"] .nil

/-! ## Theorems -/

/-! ### Helper lemmas -/

theorem lookup_append_some {α β : Type} [BEq α] {l₁ l₂ : List (α × β)} {k : α} {v : β}
    (h : l₁.lookup k = some v) : (l₁ ++ l₂).lookup k = some v := by
  induction l₁ with
  | nil => simp [List.lookup] at h
  | cons p rest ih =>
      rcases p with ⟨a, b⟩
      rw [List.cons_append, List.lookup]
      rw [List.lookup] at h
      cases hk : k == a with
      | true => rw [hk] at h; simpa using h
      | false => rw [hk] at h; exact ih h

theorem list_set_getD_self {α : Type} : ∀ (l : List α) (i : Nat) (d : α),
    l.set i (l.getD i d) = l
  | [], _, _ => rfl
  | _ :: _, 0, _ => rfl
  | x :: xs, i + 1, d => by
      simpa using list_set_getD_self xs i d

theorem store_set_get_self (st : Store) (i : Nat) : st.set i (st.get i) = st := by
  cases i with
  | zero => rfl
  | succ j =>
      show (⟨st.globalRng, st.allocated.set j (st.allocated.getD j (mkSeeded 0))⟩ : Store) = st
      rw [list_set_getD_self]

/-- The unit draw is in `[0, 1)` for every generator state. -/
theorem randomUnit_bounds (r : RngState) :
    0 ≤ (randomUnit r).1 ∧ (randomUnit r).1 < 1 := by
  constructor
  · exact div_nonneg (by positivity) (by norm_num)
  · rw [randomUnit]
    have h : ((r.seed + 2654435761 * r.idx + 40503 * r.idx * r.idx) % 1000000 : ℕ)
        < 1000000 := Nat.mod_lt _ (by norm_num)
    rw [div_lt_one (by norm_num)]
    exact_mod_cast h

/-- The closure body of `_make_random_datetime_closure`: when the range is
proper the sample lies in `[s, e]`; when `e ≤ s` it returns exactly `s`. -/
theorem rangeThunkEval_bounds (s e : ℚ) (r : RngState) :
    (s < e → s ≤ (rangeThunkEval s e r).1 ∧ (rangeThunkEval s e r).1 ≤ e) ∧
    (e ≤ s → (rangeThunkEval s e r).1 = s) := by
  constructor
  · intro hlt
    have hpos : ¬ e - s ≤ 0 := by linarith
    obtain ⟨hu0, hu1⟩ := randomUnit_bounds r
    have hval : (rangeThunkEval s e r).1 = s + (e - s) * (randomUnit r).1 := by
      simp [rangeThunkEval, uniform, hpos]
    rw [hval]
    constructor <;> nlinarith
  · intro hle
    have : e - s ≤ 0 := by linarith
    simp [rangeThunkEval, this]

/-- The `nestedF` case of `resolveFields` is exactly the source's recursive
`resolve_overrides` call on the nested model. -/
theorem resolveFields_nested (env : Env) (reg : List Nat) (input : InputData)
    (seed : Option Nat) (req : Option Req) (name : String) (metas : List LinkMeta)
    (sub rest : OSchema) (rngId : Nat) (st : Store) :
    resolveFields env reg input seed req (.nestedF name metas sub rest) rngId st =
      (let (nov, st₁) := resolve_overrides env reg input seed req sub st
       let (rov, st₂) := resolveFields env reg input seed req rest rngId st₁
       (.onested name sub nov rov, st₂)) := by
  cases seed <;> rfl

/-- `resolveFields` on a scalar field, in projection form. -/
theorem resolveFields_scalar_eq (env : Env) (reg : List Nat) (input : InputData)
    (seed : Option Nat) (req : Option Req) (n : String) (metas : List LinkMeta)
    (rest : OSchema) (rngId : Nat) (st : Store) :
    resolveFields env reg input seed req (.scalar n metas rest) rngId st =
      (let pr := resolveScalar env reg metas input req rngId (st.get rngId)
       let rr := resolveFields env reg input seed req rest rngId (st.set rngId pr.2)
       match pr.1 with
       | some e => (.consEntry n e rr.1, rr.2)
       | none => rr) := rfl

/-- `resolveFields` on a nested-model field, in projection form. -/
theorem resolveFields_nestedF_eq (env : Env) (reg : List Nat) (input : InputData)
    (seed : Option Nat) (req : Option Req) (n : String) (metas : List LinkMeta)
    (sub rest : OSchema) (rngId : Nat) (st : Store) :
    resolveFields env reg input seed req (.nestedF n metas sub rest) rngId st =
      (let pr := resolve_overrides env reg input seed req sub st
       let rr := resolveFields env reg input seed req rest rngId pr.2
       (.onested n sub pr.1 rr.1, rr.2)) := by
  cases seed <;> rfl

/-- Looking a key up after `consEntry`. -/
theorem lookup_consEntry (k : String) (e : OEntryV) (rest : Overrides) (k' : String) :
    (Overrides.consEntry k e rest).lookup k' =
      if k = k' then some e else rest.lookup k' := by
  cases e <;> rfl

/-- A name that is not a field of the schema is absent from the override map. -/
theorem resolveFields_lookup_none (env : Env) (reg : List Nat) (input : InputData)
    (seed : Option Nat) (req : Option Req) (out : OSchema) :
    ∀ (rngId : Nat) (st : Store) (name : String), name ∉ schemaNames out →
      (resolveFields env reg input seed req out rngId st).1.lookup name = none := by
  induction out with
  | nil => intro _ _ _ _; rfl
  | scalar n metas rest ih =>
      intro rngId st name hname
      rw [schemaNames, List.mem_cons, not_or] at hname
      rw [resolveFields_scalar_eq]
      rcases hent : (resolveScalar env reg metas input req rngId (st.get rngId)).1 with _ | e
      · simpa [hent] using ih rngId _ name hname.2
      · simp only [hent, lookup_consEntry]
        rw [if_neg (fun h => hname.1 h.symm)]
        exact ih rngId _ name hname.2
  | nestedF n metas sub rest ihsub ih =>
      intro rngId st name hname
      rw [schemaNames, List.mem_cons, not_or] at hname
      rw [resolveFields_nestedF_eq]
      simp only [Overrides.lookup]
      rw [if_neg (fun h => hname.1 h.symm)]
      exact ih rngId _ name hname.2

/-- In a schema with distinct field names, the override-map entry of a
non-nested field named `name` is exactly what `resolveScalar` produces for
that field's metadata (at the state its RNG object has when the loop reaches
the field). -/
theorem resolveFields_lookup_scalar (env : Env) (reg : List Nat) (input : InputData)
    (seed : Option Nat) (req : Option Req) (out : OSchema) :
    ∀ (name : String) (metas : List LinkMeta) (rngId : Nat) (st : Store),
      (schemaNames out).Nodup →
      findField out name = some (metas, none) →
      ∃ r, (resolveFields env reg input seed req out rngId st).1.lookup name =
        (resolveScalar env reg metas input req rngId r).1 := by
  induction out with
  | nil => intro name metas rngId st _ hf; simp [findField] at hf
  | scalar n ms rest ih =>
      intro name metas rngId st hnd hf
      rw [schemaNames, List.nodup_cons] at hnd
      rw [findField] at hf
      by_cases hn : n = name
      · rw [if_pos hn] at hf
        obtain ⟨hms, -⟩ : ms = metas ∧ (none : Option OSchema) = none := by
          constructor <;> [skip; rfl]
          exact congrArg (fun o => (Option.getD o ([], none)).1) hf
        subst hms
        subst hn
        refine ⟨st.get rngId, ?_⟩
        rw [resolveFields_scalar_eq]
        rcases hent : (resolveScalar env reg ms input req rngId (st.get rngId)).1 with _ | e
        · simpa [hent] using
            resolveFields_lookup_none env reg input seed req rest rngId _ n hnd.1
        · simp [hent, lookup_consEntry]
      · rw [if_neg hn] at hf
        obtain ⟨r, hr⟩ := ih name metas rngId (st.set rngId
          (resolveScalar env reg ms input req rngId (st.get rngId)).2) hnd.2 hf
        refine ⟨r, ?_⟩
        rw [resolveFields_scalar_eq]
        rcases hent : (resolveScalar env reg ms input req rngId (st.get rngId)).1 with _ | e
        · simpa [hent] using hr
        · simp only [hent, lookup_consEntry, if_neg hn]
          exact hr
  | nestedF n ms sub rest ihsub ih =>
      intro name metas rngId st hnd hf
      rw [schemaNames, List.nodup_cons] at hnd
      rw [findField] at hf
      by_cases hn : n = name
      · rw [if_pos hn] at hf
        exact absurd (congrArg (fun o => (Option.getD o ([], none)).2) hf) (by simp)
      · rw [if_neg hn] at hf
        obtain ⟨r, hr⟩ := ih name metas rngId
          (resolve_overrides env reg input seed req sub st).2 hnd.2 hf
        refine ⟨r, ?_⟩
        rw [resolveFields_nestedF_eq]
        simp only [Overrides.lookup, if_neg hn]
        exact hr

/-- The `onested` case of `evalPass1` begins with exactly the source's
recursive `_evaluate_overrides` call on the nested override map. -/
theorem evalPass1_nested (env : Env) (seed : Option Nat) (k : String)
    (sub : OSchema) (inner rest : Overrides) (st : Store) :
    evalPass1 env seed (.onested k sub inner rest) st =
      (match evalOverrides env seed inner st with
       | (none, st') => (none, st')
       | (some nres, st') =>
          let (inst, st₂) :=
            match seed with
            | some s => ((factoryBuild env nres sub (mkSeeded s)).1, st')
            | none =>
                let (v, g') := factoryBuild env nres sub (st'.get 0)
                (v, st'.set 0 g')
          match evalPass1 env seed rest st₂ with
          | (none, st₃) => (none, st₃)
          | (some (res, comp), st₃) => (some ((k, inst) :: res, comp), st₃)) := by
  rw [evalPass1, evalOverrides]
  rcases evalPass1 env seed inner st with ⟨res?, st₀⟩
  rcases res? with _ | ⟨nres, ncomp⟩
  · simp
  · rcases h : evalComputed ncomp nres with _ | nvals <;> simp [h]

/-- A direct-value entry of the override map survives pass one of
`_evaluate_overrides` unchanged. -/
theorem evalPass1_lookup_oval (env : Env) (seed : Option Nat) (ov : Overrides) :
    ∀ (st : Store) (name : String) (v : Value) (res : ValMap)
      (comp : List CompEntry) (st' : Store),
      ov.lookup name = some (.oval v) →
      evalPass1 env seed ov st = (some (res, comp), st') →
      res.lookup name = some v := by
  induction ov with
  | onil => intro st name v res comp st' hl _; simp [Overrides.lookup] at hl
  | oval k v0 rest ih =>
      intro st name v res comp st' hl he
      rw [evalPass1] at he
      rcases hrest : evalPass1 env seed rest st with ⟨res0?, st0⟩
      rw [hrest] at he
      rcases res0? with _ | ⟨res0, comp0⟩
      · simp at he
      · simp only [Prod.mk.injEq, Option.some.injEq] at he
        obtain ⟨⟨hres, -⟩, -⟩ := he
        rw [Overrides.lookup] at hl
        by_cases hk : k = name
        · rw [if_pos hk] at hl
          obtain rfl : v0 = v := by simpa using hl
          subst hk
          rw [← hres]
          simp [List.lookup]
        · rw [if_neg hk] at hl
          rw [← hres, List.lookup]
          have : (name == k) = false := by
            simpa using fun h => hk h.symm
          rw [this]
          exact ih st name v res0 comp0 st0 hl hrest
  | othunkConst k v0 rest ih =>
      intro st name v res comp st' hl he
      rw [evalPass1] at he
      rcases hrest : evalPass1 env seed rest st with ⟨res0?, st0⟩
      rw [hrest] at he
      rcases res0? with _ | ⟨res0, comp0⟩
      · simp at he
      · simp only [Prod.mk.injEq, Option.some.injEq] at he
        obtain ⟨⟨hres, -⟩, -⟩ := he
        rw [Overrides.lookup] at hl
        by_cases hk : k = name
        · rw [if_pos hk] at hl; simp at hl
        · rw [if_neg hk] at hl
          rw [← hres, List.lookup]
          have : (name == k) = false := by
            simpa using fun h => hk h.symm
          rw [this]
          exact ih st name v res0 comp0 st0 hl hrest
  | othunkRange k rid s e rest ih =>
      intro st name v res comp st' hl he
      rw [evalPass1] at he
      rcases htv : rangeThunkEval s e (st.get rid) with ⟨t, r'⟩
      rw [htv] at he
      dsimp only at he
      rcases hrest : evalPass1 env seed rest (st.set rid r') with ⟨res0?, st0⟩
      rw [hrest] at he
      rcases res0? with _ | ⟨res0, comp0⟩
      · simp at he
      · simp only [Prod.mk.injEq, Option.some.injEq] at he
        obtain ⟨⟨hres, -⟩, -⟩ := he
        rw [Overrides.lookup] at hl
        by_cases hk : k = name
        · rw [if_pos hk] at hl; simp at hl
        · rw [if_neg hk] at hl
          rw [← hres, List.lookup]
          have : (name == k) = false := by
            simpa using fun h => hk h.symm
          rw [this]
          exact ih _ name v res0 comp0 st0 hl hrest
  | onested k sub inner rest ihinner ih =>
      intro st name v res comp st' hl he
      rw [evalPass1_nested] at he
      rcases hinner : evalOverrides env seed inner st with ⟨nres?, stI⟩
      rw [hinner] at he
      rcases nres? with _ | nres
      · simp at he
      · simp only [] at he
        rcases hrest : evalPass1 env seed rest
            ((match seed with
              | some s => ((factoryBuild env nres sub (mkSeeded s)).1, stI)
              | none => ((factoryBuild env nres sub (stI.get 0)).1,
                  stI.set 0 (factoryBuild env nres sub (stI.get 0)).2)).2) with ⟨res0?, st0⟩
        rw [hrest] at he
        rcases res0? with _ | ⟨res0, comp0⟩
        · simp at he
        · simp only [Prod.mk.injEq, Option.some.injEq] at he
          obtain ⟨⟨hres, -⟩, -⟩ := he
          rw [Overrides.lookup] at hl
          by_cases hk : k = name
          · rw [if_pos hk] at hl; simp at hl
          · rw [if_neg hk] at hl
            rw [← hres, List.lookup]
            have : (name == k) = false := by
              simpa using fun h => hk h.symm
            rw [this]
            exact ih _ name v res0 comp0 st0 hl hrest
  | ocomputed k deps fn rest ih =>
      intro st name v res comp st' hl he
      rw [evalPass1] at he
      rcases hrest : evalPass1 env seed rest st with ⟨res0?, st0⟩
      rw [hrest] at he
      rcases res0? with _ | ⟨res0, comp0⟩
      · simp at he
      · simp only [Prod.mk.injEq, Option.some.injEq] at he
        obtain ⟨⟨hres, -⟩, -⟩ := he
        rw [Overrides.lookup] at hl
        by_cases hk : k = name
        · rw [if_pos hk] at hl; simp at hl
        · rw [if_neg hk] at hl
          rw [← hres]
          exact ih st name v res0 comp0 st0 hl hrest

/-- Pass two of `_evaluate_overrides` only appends new keys, so an existing
binding keeps its value. -/
theorem evalComputed_preserve (comp : List CompEntry) :
    ∀ (res res' : ValMap) (name : String) (v : Value),
      res.lookup name = some v → evalComputed comp res = some res' →
      res'.lookup name = some v := by
  induction comp with
  | nil =>
      intro res res' name v hl he
      rw [evalComputed] at he
      cases he
      exact hl
  | cons c rest ih =>
      rcases c with ⟨k, deps, fn⟩
      intro res res' name v hl he
      rw [evalComputed] at he
      rcases hla : lookupAll res deps with _ | vs
      · rw [hla] at he; cases he
      · rw [hla] at he
        exact ih _ res' name v (lookup_append_some hl) he

/-- A direct-value entry of the override map survives the whole of
`_evaluate_overrides`. -/
theorem evalOverrides_lookup_oval (env : Env) (seed : Option Nat) (ov : Overrides)
    (st : Store) (name : String) (v : Value) (res : ValMap) (st' : Store)
    (hl : ov.lookup name = some (.oval v))
    (he : evalOverrides env seed ov st = (some res, st')) :
    res.lookup name = some v := by
  rw [evalOverrides] at he
  rcases h1 : evalPass1 env seed ov st with ⟨res0?, st0⟩
  rw [h1] at he
  rcases res0? with _ | ⟨res0, comp⟩
  · simp at he
  · simp only [Prod.mk.injEq] at he
    exact evalComputed_preserve comp res0 res name v
      (evalPass1_lookup_oval env seed ov st name v res0 comp st0 hl h1) he.1

/-- The factory sets a field present in the resolved map to exactly that
value. -/
theorem objGet_factoryBuild (env : Env) (resolved : ValMap) (out : OSchema) :
    ∀ (r : RngState) (name : String) (v : Value),
      name ∈ schemaNames out → resolved.lookup name = some v →
      objGet (factoryBuild env resolved out r).1 name = some v := by
  induction out with
  | nil => intro r name v hmem _; simp [schemaNames] at hmem
  | scalar n metas rest ih =>
      intro r name v hmem hl
      rw [schemaNames, List.mem_cons] at hmem
      rw [factoryBuild]
      by_cases hn : n = name
      · subst hn
        rw [hl]
        simp [objGet]
      · rcases hres : resolved.lookup n with _ | w
        · rcases hg : env.genField n r with ⟨w, r₁⟩
          simp only [hres, hg, objGet, if_neg hn]
          exact ih r₁ name v (hmem.resolve_left (fun h => hn h.symm)) hl
        · simp only [hres, objGet, if_neg hn]
          exact ih r name v (hmem.resolve_left (fun h => hn h.symm)) hl
  | nestedF n metas sub rest ihsub ih =>
      intro r name v hmem hl
      rw [schemaNames, List.mem_cons] at hmem
      rw [factoryBuild]
      by_cases hn : n = name
      · subst hn
        rw [hl]
        simp [objGet]
      · rcases hres : resolved.lookup n with _ | w
        · rcases hg : env.genField n r with ⟨w, r₁⟩
          simp only [hres, hg, objGet, if_neg hn]
          exact ih r₁ name v (hmem.resolve_left (fun h => hn h.symm)) hl
        · simp only [hres, objGet, if_neg hn]
          exact ih r name v (hmem.resolve_left (fun h => hn h.symm)) hl

/-- A found field's name is among the schema's field names. -/
theorem findField_mem (out : OSchema) :
    ∀ (name : String) (x : List LinkMeta × Option OSchema),
      findField out name = some x → name ∈ schemaNames out := by
  induction out with
  | nil => intro name x h; simp [findField] at h
  | scalar n ms rest ih =>
      intro name x h
      rw [findField] at h
      rw [schemaNames, List.mem_cons]
      by_cases hn : n = name
      · exact Or.inl hn.symm
      · rw [if_neg hn] at h
        exact Or.inr (ih name x h)
  | nestedF n ms sub rest ihsub ih =>
      intro name x h
      rw [findField] at h
      rw [schemaNames, List.mem_cons]
      by_cases hn : n = name
      · exact Or.inl hn.symm
      · rw [if_neg hn] at h
        exact Or.inr (ih name x h)

/-- An override bound to a direct value lands verbatim in the instance built
by `build_one`. -/
theorem build_one_objGet (env : Env) (reg : List Nat) (out : OSchema)
    (input : InputData) (seed : Option Nat) (g : RngState) (inst : Value)
    (st2 : Store) (name : String) (v : Value)
    (hmem : name ∈ schemaNames out)
    (hov : (resolve_overrides env reg input seed none out ⟨g, []⟩).1.lookup name
      = some (.oval v))
    (hb : build_one env reg out input seed g = (some inst, st2)) :
    objGet inst name = some v := by
  rw [build_one] at hb
  rcases hr : resolve_overrides env reg input seed none out ⟨g, []⟩ with ⟨ov, st₁⟩
  rw [hr] at hb
  rw [hr] at hov
  dsimp only at hb hov
  rcases he : evalOverrides env seed ov st₁ with ⟨res?, stE⟩
  rw [he] at hb
  dsimp only at hb
  rcases res? with _ | resolved
  · simp at hb
  · have hres : resolved.lookup name = some v :=
      evalOverrides_lookup_oval env seed ov st₁ name v resolved stE hov he
    rcases seed with _ | s
    · simp only [Prod.mk.injEq, Option.some.injEq] at hb
      rw [← hb.1]
      exact objGet_factoryBuild env resolved out _ name v hmem hres
    · simp only [Prod.mk.injEq, Option.some.injEq] at hb
      rw [← hb.1]
      exact objGet_factoryBuild env resolved out _ name v hmem hres

/-- `resolveScalar` on a `FromInput` link: copy when present and non-null. -/
theorem resolveScalar_fromInput (env : Env) (reg : List Nat) (metas : List LinkMeta)
    (input : InputData) (req : Option Req) (rngId : Nat) (r : RngState) (f : String)
    (hm : findMeta reg metas = some (.mFromInput f)) :
    resolveScalar env reg metas input req rngId r =
      (if getInput input f = .vnull then (none, r)
       else (some (.oval (getInput input f)), r)) := by
  rw [resolveScalar, hm]

/-- `resolveScalar` on a `WhenInput(_, _, FromInput(f))` link. -/
theorem resolveScalar_whenFromInput (env : Env) (reg : List Nat)
    (metas : List LinkMeta) (input : InputData) (req : Option Req) (rngId : Nat)
    (r : RngState) (cf : String) (cv : Value) (f : String)
    (hm : findMeta reg metas = some (.mWhenInput cf cv (.ifromInput f))) :
    resolveScalar env reg metas input req rngId r =
      (if getInput input cf = cv then
        (if getInput input f = .vnull then (none, r)
         else (some (.oval (getInput input f)), r))
       else (none, r)) := by
  rw [resolveScalar, hm]

/-- A value that `_to_datetime` accepts is not `None`. -/
theorem toDatetime_ne_vnull (env : Env) (v : Value) (q : ℚ)
    (h : toDatetime env v = some q) : v ≠ .vnull := by
  intro hv
  rw [hv] at h
  simp [toDatetime] at h

/-- `resolveScalar` on a `DateRangeFrom` link whose two input values parse:
the override is a thunk closing over this call's RNG object and the parsed
endpoints. -/
theorem resolveScalar_dateRange (env : Env) (reg : List Nat) (metas : List LinkMeta)
    (input : InputData) (req : Option Req) (rngId : Nat) (r : RngState)
    (sf ef : String) (sq eq : ℚ)
    (hm : findMeta reg metas = some (.mDateRangeFrom sf ef))
    (hs : toDatetime env (getInput input sf) = some sq)
    (he : toDatetime env (getInput input ef) = some eq) :
    resolveScalar env reg metas input req rngId r =
      (some (.othunkRange rngId sq eq), r) := by
  have hsv := toDatetime_ne_vnull env _ _ hs
  have hev := toDatetime_ne_vnull env _ _ he
  rw [resolveScalar, hm]
  simp [hsv, hev, hs, he]

/-- `resolveScalar` on a registered custom link: its `resolve(input_data, rng)`
return value is stored unchanged (value or callable), `None` yields no
override. -/
theorem resolveScalar_plugin (env : Env) (reg : List Nat) (metas : List LinkMeta)
    (input : InputData) (req : Option Req) (rngId : Nat) (r : RngState) (tid : Nat)
    (f : InputData → RngState → Option PRet × RngState)
    (hm : findMeta reg metas = some (.mPlugin tid f))
    (hreg : reg.contains tid = true) :
    resolveScalar env reg metas input req rngId r =
      ((f input r).1.elim none (fun ret =>
          match ret with
          | .pval v => some (.oval v)
          | .pthunk v => some (.othunkConst v)),
        (f input r).2) := by
  rw [resolveScalar, hm]
  simp only [hreg, if_true]
  rcases hf : f input r with ⟨ret, r'⟩
  rcases ret with _ | p
  · rfl
  · cases p <;> rfl

/-- The override-map entry of a non-nested field named `name`, through the
`resolve_overrides` wrapper (which seeds/chooses this call's RNG object). -/
theorem resolve_overrides_lookup_scalar (env : Env) (reg : List Nat)
    (input : InputData) (seed : Option Nat) (req : Option Req) (out : OSchema)
    (st : Store) (name : String) (metas : List LinkMeta)
    (hnd : (schemaNames out).Nodup)
    (hf : findField out name = some (metas, none)) :
    ∃ rngId r, (resolve_overrides env reg input seed req out st).1.lookup name =
      (resolveScalar env reg metas input req rngId r).1 := by
  cases seed with
  | none =>
      obtain ⟨r, h⟩ := resolveFields_lookup_scalar env reg input none req out
        name metas 0 st hnd hf
      exact ⟨0, r, h⟩
  | some s =>
      obtain ⟨r, h⟩ := resolveFields_lookup_scalar env reg input (some s) req out
        name metas (st.allocated.length + 1)
        ⟨st.globalRng, st.allocated ++ [mkSeeded s]⟩ hnd hf
      exact ⟨st.allocated.length + 1, r, h⟩

/-- The `nestedF` no-metadata case of `validateFields` is exactly the source's
recursive `_validate_output_links` call on the nested model. -/
theorem validateFields_nested (reg : List Nat) (inM : InModel)
    (path method outName : String) (outNames : List String) (pfx n : String)
    (metas : List LinkMeta) (sub rest : OSchema) (h : findMeta reg metas = none) :
    validateFields reg inM path method outName outNames pfx
        (.nestedF n metas sub rest) =
      validateOutputLinks reg inM path method outName sub (pfx ++ n ++ ".") ++
      validateFields reg inM path method outName outNames pfx rest := by
  rw [validateFields, h, validateOutputLinks]

/-- `resolveScalar` on a `WhenInput` whose condition is false: no override. -/
theorem resolveScalar_whenFalse (env : Env) (reg : List Nat) (metas : List LinkMeta)
    (input : InputData) (req : Option Req) (rngId : Nat) (r : RngState)
    (cf : String) (cv : Value) (inner : InnerLink)
    (hm : findMeta reg metas = some (.mWhenInput cf cv inner))
    (hc : getInput input cf ≠ cv) :
    resolveScalar env reg metas input req rngId r = (none, r) := by
  rw [resolveScalar, hm]
  exact if_neg hc

/-- A name that is not among the schema's field names is not found. -/
theorem findField_none (m : OSchema) :
    ∀ field, field ∉ schemaNames m → findField m field = none := by
  induction m with
  | nil => intro _ _; rfl
  | scalar n ms rest ih =>
      intro field hf
      rw [schemaNames, List.mem_cons, not_or] at hf
      rw [findField, if_neg (fun h => hf.1 h.symm)]
      exact ih field hf.2
  | nestedF n ms sub rest ihsub ih =>
      intro field hf
      rw [schemaNames, List.mem_cons, not_or] at hf
      rw [findField, if_neg (fun h => hf.1 h.symm)]
      exact ih field hf.2

/-- If no metadata item is a built-in link or a registered custom link, the
scan finds nothing. -/
theorem findMeta_none (reg : List Nat) (ms : List LinkMeta)
    (h : ∀ x ∈ ms, x.isBuiltin = false ∧ isRegisteredM reg x = false) :
    findMeta reg ms = none := by
  induction ms with
  | nil => rfl
  | cons m rest ih =>
      obtain ⟨hb, hr⟩ := h m (List.mem_cons_self m rest)
      rw [findMeta, hb, hr]
      exact ih (fun x hx => h x (List.mem_cons_of_mem m hx))

/-! ### Claim theorems -/

/-- **C1**: for every output schema, input schema/instance and seed mode, a
field carrying `FromInput(f)` (the spec's `CopyFromInput`): when the dumped
input holds a non-null value at `f`, the override map binds the field to
exactly that value and any successfully built instance carries it verbatim;
when the value is missing or null, the field is absent from the override
map. -/
theorem c1_copy_from_input (env : Env) (reg : List Nat) (out : OSchema)
    (input : InputData) (seed : Option Nat) (g : RngState) (name f : String)
    (metas : List LinkMeta)
    (hnd : (schemaNames out).Nodup)
    (hf : findField out name = some (metas, none))
    (hm : findMeta reg metas = some (.mFromInput f)) :
    (getInput input f ≠ .vnull →
      (resolve_overrides env reg input seed none out ⟨g, []⟩).1.lookup name
        = some (.oval (getInput input f)) ∧
      ∀ inst st2, build_one env reg out input seed g = (some inst, st2) →
        objGet inst name = some (getInput input f)) ∧
    (getInput input f = .vnull →
      (resolve_overrides env reg input seed none out ⟨g, []⟩).1.lookup name = none) := by
  obtain ⟨rngId, r, hlook⟩ := resolve_overrides_lookup_scalar env reg input seed
    none out ⟨g, []⟩ name metas hnd hf
  rw [resolveScalar_fromInput env reg metas input none rngId r f hm] at hlook
  constructor
  · intro hnn
    rw [if_neg hnn] at hlook
    refine ⟨hlook, ?_⟩
    intro inst st2 hb
    exact build_one_objGet env reg out input seed g inst st2 name _
      (findField_mem out name _ hf) hlook hb
  · intro hnull
    rw [if_pos hnull] at hlook
    exact hlook

theorem c1_copy_from_input_witness :
    getInput inW "src" ≠ .vnull ∧
    ((resolve_overrides envW [] inW (some 11) none outW1 ⟨mkSeeded 3, []⟩).1.lookup "copy"
        = some (.oval (getInput inW "src")) ∧
      ∀ inst st2, build_one envW [] outW1 inW (some 11) (mkSeeded 3) = (some inst, st2) →
        objGet inst "copy" = some (getInput inW "src")) :=
  ⟨by decide,
    (c1_copy_from_input envW [] outW1 inW (some 11) (mkSeeded 3) "copy" "src"
      [.mFromInput "src"] (by decide) rfl rfl).1 (by decide)⟩

/-- **C6**: a `WhenInput(condition_field, condition_value, FromInput(f))`
(the spec's `ConditionalLink` with a `CopyFromInput` inner link): when the
condition field equals the condition value and `input[f]` is non-null, the
override map binds the field to `input[f]` and any built instance carries it;
when the condition value differs, the field is absent from the override
map. -/
theorem c6_conditional_link (env : Env) (reg : List Nat) (out : OSchema)
    (input : InputData) (seed : Option Nat) (g : RngState) (name cf f : String)
    (cv : Value) (metas : List LinkMeta)
    (hnd : (schemaNames out).Nodup)
    (hf : findField out name = some (metas, none))
    (hm : findMeta reg metas = some (.mWhenInput cf cv (.ifromInput f))) :
    (getInput input cf = cv → getInput input f ≠ .vnull →
      (resolve_overrides env reg input seed none out ⟨g, []⟩).1.lookup name
        = some (.oval (getInput input f)) ∧
      ∀ inst st2, build_one env reg out input seed g = (some inst, st2) →
        objGet inst name = some (getInput input f)) ∧
    (getInput input cf ≠ cv →
      (resolve_overrides env reg input seed none out ⟨g, []⟩).1.lookup name = none) := by
  obtain ⟨rngId, r, hlook⟩ := resolve_overrides_lookup_scalar env reg input seed
    none out ⟨g, []⟩ name metas hnd hf
  rw [resolveScalar_whenFromInput env reg metas input none rngId r cf cv f hm] at hlook
  constructor
  · intro hcond hnn
    rw [if_pos hcond, if_neg hnn] at hlook
    refine ⟨hlook, ?_⟩
    intro inst st2 hb
    exact build_one_objGet env reg out input seed g inst st2 name _
      (findField_mem out name _ hf) hlook hb
  · intro hcond
    rw [if_neg hcond] at hlook
    exact hlook

/-- **C2**: a `DateRangeFrom(s, e)` (the spec's `RangeFromInputFields`) whose
two input values parse as date/time points `sq`, `eq`: the override map binds
the field to the sampling thunk over those endpoints (`evalPass1` invokes such
a thunk as `rangeThunkEval sq eq` at its RNG's current state), every
invocation on any RNG state yields `v` with `sq ≤ v ≤ eq` when `eq > sq`, and
every invocation returns exactly `sq` when `eq ≤ sq` — the degenerate case is
a defined result, not an error. -/
theorem c2_range_from_input_fields (env : Env) (reg : List Nat) (out : OSchema)
    (input : InputData) (seed : Option Nat) (g : RngState) (name sf ef : String)
    (sq eq : ℚ) (metas : List LinkMeta)
    (hnd : (schemaNames out).Nodup)
    (hf : findField out name = some (metas, none))
    (hm : findMeta reg metas = some (.mDateRangeFrom sf ef))
    (hs : toDatetime env (getInput input sf) = some sq)
    (heq : toDatetime env (getInput input ef) = some eq) :
    (∃ rid, (resolve_overrides env reg input seed none out ⟨g, []⟩).1.lookup name
        = some (.othunkRange rid sq eq)) ∧
    (∀ r', sq < eq →
      sq ≤ (rangeThunkEval sq eq r').1 ∧ (rangeThunkEval sq eq r').1 ≤ eq) ∧
    (∀ r', eq ≤ sq → (rangeThunkEval sq eq r').1 = sq) := by
  obtain ⟨rngId, r, hlook⟩ := resolve_overrides_lookup_scalar env reg input seed
    none out ⟨g, []⟩ name metas hnd hf
  rw [resolveScalar_dateRange env reg metas input none rngId r sf ef sq eq
    hm hs heq] at hlook
  exact ⟨⟨rngId, hlook⟩,
    fun r' hlt => (rangeThunkEval_bounds sq eq r').1 hlt,
    fun r' hle => (rangeThunkEval_bounds sq eq r').2 hle⟩

theorem c2_range_from_input_fields_witness :
    toDatetime envW (getInput inW2 "s") = some 3 ∧
    toDatetime envW (getInput inW2 "e") = some 5 ∧
    ((∃ rid, (resolve_overrides envW [] inW2 (some 4) none outW2 ⟨mkSeeded 3, []⟩).1.lookup "ts"
        = some (.othunkRange rid 3 5)) ∧
    (∀ r', (3 : ℚ) < 5 →
      3 ≤ (rangeThunkEval 3 5 r').1 ∧ (rangeThunkEval 3 5 r').1 ≤ 5) ∧
    (∀ r', (5 : ℚ) ≤ 3 → (rangeThunkEval 3 5 r').1 = 3)) :=
  ⟨rfl, rfl,
    c2_range_from_input_fields envW [] outW2 inW2 (some 4) (mkSeeded 3) "ts" "s" "e"
      3 5 [.mDateRangeFrom "s" "e"] (by decide) rfl rfl rfl rfl⟩

theorem c6_conditional_link_witness :
    getInput inW "cond" = .vbool true ∧ getInput inW "src" ≠ .vnull ∧
    ((resolve_overrides envW [] inW none none outW6 ⟨mkSeeded 3, []⟩).1.lookup "status"
        = some (.oval (getInput inW "src")) ∧
      ∀ inst st2, build_one envW [] outW6 inW none (mkSeeded 3) = (some inst, st2) →
        objGet inst "status" = some (getInput inW "src")) :=
  ⟨by decide, by decide,
    (c6_conditional_link envW [] outW6 inW none (mkSeeded 3) "status" "cond" "src"
      (.vbool true) [.mWhenInput "cond" (.vbool true) (.ifromInput "src")]
      (by decide) rfl rfl).1 (by decide) (by decide)⟩

/-- **C8 counterexample**: the claim says a degenerate date range (like a
missing input or a false condition) leaves the affected field *absent from
the override map*.  With input `s = 5`, `e = 3` (both parse, `end <= start`)
the resolver nevertheless installs the sampling thunk: the field is present,
so the claim as stated is false. -/
theorem c8_counterexample :
    ¬ ((resolve_overrides envW [] inW (some 0) none outW8 ⟨mkSeeded 3, []⟩).1.lookup "ts"
      = none) := by
  intro h
  have hval : (resolve_overrides envW [] inW (some 0) none outW8 ⟨mkSeeded 3, []⟩).1.lookup "ts"
      = some (.othunkRange 1 5 3) := rfl
  rw [hval] at h
  exact Option.noConfusion h

/-- **C8 amended**: resolution never raises for a not-applicable link (the
embedding is total, mirroring the source's raise-free branches): a
`FromInput` whose input value is missing or null and a `WhenInput` whose
condition is false leave the field absent from the override map; a
*degenerate* `DateRangeFrom` (both values parse but `end <= start`), however,
leaves the field **present**, bound to a thunk whose every invocation returns
exactly the start point. -/
theorem c8_not_applicable (env : Env) (reg : List Nat) (out : OSchema)
    (input : InputData) (seed : Option Nat) (g : RngState) (name : String)
    (metas : List LinkMeta)
    (hnd : (schemaNames out).Nodup)
    (hf : findField out name = some (metas, none)) :
    (∀ f, findMeta reg metas = some (.mFromInput f) → getInput input f = .vnull →
      (resolve_overrides env reg input seed none out ⟨g, []⟩).1.lookup name = none) ∧
    (∀ cf cv inner, findMeta reg metas = some (.mWhenInput cf cv inner) →
      getInput input cf ≠ cv →
      (resolve_overrides env reg input seed none out ⟨g, []⟩).1.lookup name = none) ∧
    (∀ sf ef sq eq, findMeta reg metas = some (.mDateRangeFrom sf ef) →
      toDatetime env (getInput input sf) = some sq →
      toDatetime env (getInput input ef) = some eq → eq ≤ sq →
      ∃ rid, (resolve_overrides env reg input seed none out ⟨g, []⟩).1.lookup name
          = some (.othunkRange rid sq eq) ∧
        ∀ r', (rangeThunkEval sq eq r').1 = sq) := by
  refine ⟨?_, ?_, ?_⟩
  · intro f hm hnull
    obtain ⟨rngId, r, hlook⟩ := resolve_overrides_lookup_scalar env reg input seed
      none out ⟨g, []⟩ name metas hnd hf
    rw [resolveScalar_fromInput env reg metas input none rngId r f hm,
      if_pos hnull] at hlook
    exact hlook
  · intro cf cv inner hm hcond
    obtain ⟨rngId, r, hlook⟩ := resolve_overrides_lookup_scalar env reg input seed
      none out ⟨g, []⟩ name metas hnd hf
    rw [resolveScalar_whenFalse env reg metas input none rngId r cf cv inner
      hm hcond] at hlook
    exact hlook
  · intro sf ef sq eq hm hs heq hdeg
    obtain ⟨rngId, r, hlook⟩ := resolve_overrides_lookup_scalar env reg input seed
      none out ⟨g, []⟩ name metas hnd hf
    rw [resolveScalar_dateRange env reg metas input none rngId r sf ef sq eq
      hm hs heq] at hlook
    exact ⟨rngId, hlook, fun r' => (rangeThunkEval_bounds sq eq r').2 hdeg⟩

theorem c8_not_applicable_witness :
    findField outW8 "ts" = some ([.mDateRangeFrom "s" "e"], none) ∧
    toDatetime envW (getInput inW "s") = some 5 ∧
    toDatetime envW (getInput inW "e") = some 3 ∧ (3 : ℚ) ≤ 5 ∧
    (∃ rid, (resolve_overrides envW [] inW (some 0) none outW8 ⟨mkSeeded 3, []⟩).1.lookup "ts"
        = some (.othunkRange rid 5 3) ∧
      ∀ r', (rangeThunkEval 5 3 r').1 = 5) :=
  ⟨rfl, rfl, rfl, by norm_num,
    (c8_not_applicable envW [] outW8 inW (some 0) (mkSeeded 3) "ts"
      [.mDateRangeFrom "s" "e"] (by decide) rfl).2.2 "s" "e" 5 3 rfl rfl rfl
      (by norm_num)⟩

/-- **C9**: `get_field_metadata` returns `None` (it cannot raise: the
embedding is total, as is the source, whose introspection failures are caught
and fall back) both when the named field does not exist on the schema and
when the field's metadata contains no built-in link and no registered custom
link. -/
theorem c9_get_field_metadata_none (reg : List Nat) (m : OSchema) (field : String) :
    (field ∉ schemaNames m → get_field_metadata reg m field = none) ∧
    (∀ ms sub, findField m field = some (ms, sub) →
      (∀ x ∈ ms, x.isBuiltin = false ∧ isRegisteredM reg x = false) →
      get_field_metadata reg m field = none) := by
  constructor
  · intro hmem
    rw [get_field_metadata, findField_none m field hmem]
  · intro ms sub hff hall
    rw [get_field_metadata, hff]
    exact findMeta_none reg ms hall

theorem c9_get_field_metadata_none_witness :
    ("missing" ∉ schemaNames outW1 ∧ get_field_metadata [] outW1 "missing" = none) ∧
    (findField outW1 "other" = some ([], none) ∧
      get_field_metadata [] outW1 "other" = none) :=
  ⟨⟨by decide, (c9_get_field_metadata_none [] outW1 "missing").1 (by decide)⟩,
    ⟨rfl, (c9_get_field_metadata_none [] outW1 "other").2 [] none rfl
      (fun x hx => absurd hx (List.not_mem_nil x))⟩⟩

/-- **C5 counterexample**: the claim says a registered plugin link's non-null
return value is *never treated as a thunk (never invoked as a callable during
override evaluation)*.  A plugin returning a callable is stored as a callable
override (not a direct value), and `_evaluate_overrides` invokes it — the
built field holds the callable's result, not the callable. -/
theorem c5_counterexample :
    (resolveScalar envW [7] [.mPlugin 7 pluginThunkFn] inW none 1 (mkSeeded 0)).1
        = some (.othunkConst (.vstr "ok")) ∧
    (¬ ∃ v, (resolveScalar envW [7] [.mPlugin 7 pluginThunkFn] inW none 1 (mkSeeded 0)).1
        = some (.oval v)) ∧
    (evalOverrides envW none (.othunkConst "f" (.vstr "ok") .onil) ⟨mkSeeded 3, []⟩).1
        = some [("f", .vstr "ok")] := by
  refine ⟨rfl, ?_, rfl⟩
  rintro ⟨v, hv⟩
  have hval : (resolveScalar envW [7] [.mPlugin 7 pluginThunkFn] inW none 1 (mkSeeded 0)).1
      = some (.othunkConst (.vstr "ok")) := rfl
  rw [hval] at hv
  simp at hv

/-- **C5 amended**: a registered plugin link's `resolve` is called with the
full dict-form input and this call's RNG (structural in `resolveScalar`); a
`None` return yields no override; a plain value return becomes a direct
override; a callable return is stored unchanged and *is invoked during
override evaluation*, its result becoming the field's value. -/
theorem c5_plugin_resolve (env : Env) (reg : List Nat) (metas : List LinkMeta)
    (input : InputData) (req : Option Req) (rngId : Nat) (r : RngState) (tid : Nat)
    (f : InputData → RngState → Option PRet × RngState)
    (hm : findMeta reg metas = some (.mPlugin tid f))
    (hreg : reg.contains tid = true) :
    ((f input r).1 = none →
      (resolveScalar env reg metas input req rngId r).1 = none) ∧
    (∀ v, (f input r).1 = some (.pval v) →
      (resolveScalar env reg metas input req rngId r).1 = some (.oval v)) ∧
    (∀ v, (f input r).1 = some (.pthunk v) →
      (resolveScalar env reg metas input req rngId r).1 = some (.othunkConst v) ∧
      ∀ (seed : Option Nat) (st : Store) (k : String),
        (evalOverrides env seed (.othunkConst k v .onil) st).1 = some [(k, v)]) := by
  have he := resolveScalar_plugin env reg metas input req rngId r tid f hm hreg
  refine ⟨?_, ?_, ?_⟩
  · intro hret
    rw [he]
    rw [hret]
    rfl
  · intro v hret
    rw [he]
    rw [hret]
    rfl
  · intro v hret
    refine ⟨?_, fun seed st k => rfl⟩
    rw [he]
    rw [hret]
    rfl

theorem c5_plugin_resolve_witness :
    ([7].contains 7 = true) ∧
    ((pluginThunkFn inW (mkSeeded 0)).1 = some (.pthunk (.vstr "ok"))) ∧
    ((resolveScalar envW [7] [.mPlugin 7 pluginThunkFn] inW none 1 (mkSeeded 0)).1
        = some (.othunkConst (.vstr "ok")) ∧
      ∀ (seed : Option Nat) (st : Store) (k : String),
        (evalOverrides envW seed (.othunkConst k (.vstr "ok") .onil) st).1
          = some [(k, .vstr "ok")]) :=
  ⟨by decide, rfl,
    (c5_plugin_resolve envW [7] [.mPlugin 7 pluginThunkFn] inW none 1 (mkSeeded 0) 7
      pluginThunkFn rfl (by decide)).2.2 (.vstr "ok") rfl⟩

theorem lookup_append_none {α β : Type} [BEq α] {l₁ l₂ : List (α × β)} {k : α}
    (h : l₁.lookup k = none) : (l₁ ++ l₂).lookup k = l₂.lookup k := by
  induction l₁ with
  | nil => rfl
  | cons p rest ih =>
      rcases p with ⟨a, b⟩
      rw [List.cons_append, List.lookup]
      rw [List.lookup] at h
      cases hk : k == a with
      | true => rw [hk] at h; simp at h
      | false => rw [hk] at h; exact ih h

/-- Pass one maps a block of direct-value entries to themselves, in order. -/
theorem evalPass1_ovalsOf (env : Env) (seed : Option Nat) (l : ValMap) :
    ∀ (tail : Overrides) (st : Store) (res : ValMap) (comp : List CompEntry)
      (st' : Store),
      evalPass1 env seed tail st = (some (res, comp), st') →
      evalPass1 env seed (ovalsOf l tail) st = (some (l ++ res, comp), st') := by
  induction l with
  | nil => intro tail st res comp st' h; simpa using h
  | cons p rest ih =>
      rcases p with ⟨k, v⟩
      intro tail st res comp st' h
      rw [ovalsOf, evalPass1, ih tail st res comp st' h]
      rfl

/-- **C10**: computed-marker entries are evaluated in map order and each
result is written back into the value map before the next one runs, so a
computed field `B` whose dependency is the computed field `A` declared
earlier in the map receives `A`'s already-computed value: evaluation
succeeds (no `KeyError`) for forward-ordered computed-on-computed chains,
and `B`'s final value is `fB` applied to `A`'s computed value. -/
theorem c10_computed_chain (env : Env) (seed : Option Nat) (st : Store)
    (base : ValMap) (A B : String) (depsA : List String)
    (fA fB : List Value → Value) (vs : List Value)
    (hA : lookupAll base depsA = some vs)
    (hAbase : base.lookup A = none)
    (hBbase : base.lookup B = none)
    (hBA : (B == A) = false) :
    (evalOverrides env seed
        (ovalsOf base (.ocomputed A depsA fA (.ocomputed B [A] fB .onil))) st).1
      = some ((base ++ [(A, fA vs)]) ++ [(B, fB [fA vs])]) ∧
    ((base ++ [(A, fA vs)]) ++ [(B, fB [fA vs])]).lookup B = some (fB [fA vs]) := by
  have htail : evalPass1 env seed
      (.ocomputed A depsA fA (.ocomputed B [A] fB .onil)) st
      = (some ([], [(A, depsA, fA), (B, [A], fB)]), st) := rfl
  have h1 := evalPass1_ovalsOf env seed base _ st [] [(A, depsA, fA), (B, [A], fB)]
    st htail
  have hlookA : (base ++ [(A, fA vs)]).lookup A = some (fA vs) := by
    rw [lookup_append_none hAbase, List.lookup]
    simp
  have hA2 : lookupAll (base ++ [(A, fA vs)]) [A] = some [fA vs] := by
    rw [lookupAll, hlookA, lookupAll]
  have hlookB : ((base ++ [(A, fA vs)]) ++ [(B, fB [fA vs])]).lookup B
      = some (fB [fA vs]) := by
    have hBmid : (base ++ [(A, fA vs)]).lookup B = none := by
      rw [lookup_append_none hBbase, List.lookup, hBA]
      rfl
    rw [lookup_append_none hBmid, List.lookup]
    simp
  refine ⟨?_, hlookB⟩
  rw [evalOverrides, h1]
  show evalComputed [(A, depsA, fA), (B, [A], fB)] (base ++ []) = _
  rw [List.append_nil]
  simp only [evalComputed, hA, hA2]

theorem c10_computed_chain_witness :
    lookupAll [("x", Value.vint 2)] ["x"] = some [Value.vint 2] ∧
    List.lookup "a" [("x", Value.vint 2)] = none ∧
    List.lookup "b" [("x", Value.vint 2)] = none ∧
    (("b" == "a") = false) ∧
    ((evalOverrides envW (some 0)
        (ovalsOf [("x", Value.vint 2)]
          (.ocomputed "a" ["x"] addAllW (.ocomputed "b" ["a"] addAllW .onil)))
        ⟨mkSeeded 3, []⟩).1
      = some ((([("x", Value.vint 2)] ++ [("a", addAllW [Value.vint 2])]) ++
          [("b", addAllW [addAllW [Value.vint 2]])])) ∧
    ((([("x", Value.vint 2)] ++ [("a", addAllW [Value.vint 2])]) ++
          [("b", addAllW [addAllW [Value.vint 2]])]).lookup "b"
      = some (addAllW [addAllW [Value.vint 2]]))) :=
  ⟨rfl, rfl, rfl, by decide,
    c10_computed_chain envW (some 0) ⟨mkSeeded 3, []⟩ [("x", Value.vint 2)]
      "a" "b" ["x"] addAllW addAllW [Value.vint 2] rfl rfl rfl (by decide)⟩

/-- A range thunk produced by the per-field dispatch always closes over the
RNG object of the call that created it. -/
theorem resolveScalar_thunkId (env : Env) (reg : List Nat) (metas : List LinkMeta)
    (input : InputData) (req : Option Req) (rngId : Nat) (r : RngState) :
    ∀ rid a b, (resolveScalar env reg metas input req rngId r).1
      = some (.othunkRange rid a b) → rid = rngId := by
  intro rid a b h
  rw [resolveScalar] at h
  rcases hm : findMeta reg metas with _ | m
  · rw [hm] at h; simp at h
  · rw [hm] at h
    cases m <;> dsimp only at h <;> (repeat' split at h) <;> simp_all

/-- All range thunks created by one field loop share that call's RNG id. -/
theorem resolveFields_levelIds (env : Env) (reg : List Nat) (input : InputData)
    (seed : Option Nat) (req : Option Req) (out : OSchema) :
    ∀ (rngId : Nat) (st : Store),
      ∀ i ∈ levelThunkIds (resolveFields env reg input seed req out rngId st).1,
        i = rngId := by
  induction out with
  | nil => intro rngId st i hi; simp [resolveFields, levelThunkIds] at hi
  | scalar n metas rest ih =>
      intro rngId st i hi
      rw [resolveFields_scalar_eq] at hi
      dsimp only at hi
      rcases hsc : (resolveScalar env reg metas input req rngId (st.get rngId)).1
        with _ | e
      · rw [hsc] at hi
        exact ih rngId _ i hi
      · rw [hsc] at hi
        cases e with
        | othunkRange rid a b =>
            dsimp only [Overrides.consEntry, levelThunkIds] at hi
            rw [List.mem_cons] at hi
            rcases hi with rfl | hi
            · exact resolveScalar_thunkId env reg metas input req rngId _ i a b hsc
            · exact ih rngId _ i hi
        | oval v =>
            dsimp only [Overrides.consEntry, levelThunkIds] at hi
            exact ih rngId _ i hi
        | othunkConst v =>
            dsimp only [Overrides.consEntry, levelThunkIds] at hi
            exact ih rngId _ i hi
        | onested sub ov =>
            dsimp only [Overrides.consEntry, levelThunkIds] at hi
            exact ih rngId _ i hi
        | ocomputed deps fn =>
            dsimp only [Overrides.consEntry, levelThunkIds] at hi
            exact ih rngId _ i hi
  | nestedF n metas sub rest ihsub ih =>
      intro rngId st i hi
      rw [resolveFields_nestedF_eq] at hi
      rw [levelThunkIds] at hi
      exact ih rngId _ i hi

/-- **C4 counterexample**: the claim says one RNG instance is seeded once for
the whole seeded resolution call *including recursion into nested
object-typed fields* and shared by every thunk.  With a nested model the
recursive `resolve_overrides(nested_model, …, seed=seed)` call constructs a
fresh `random.Random(seed)`: the top-level thunk closes over RNG object 1,
the nested one over RNG object 2 — two distinct instances, so the sampled
values do not form one consumption sequence of a single generator. -/
theorem c4_counterexample :
    ovThunkIds (resolve_overrides envW [] inW (some 0) none outW4 ⟨mkSeeded 3, []⟩).1
        = [1, 2] ∧
    ¬ (∀ i ∈ ovThunkIds
          (resolve_overrides envW [] inW (some 0) none outW4 ⟨mkSeeded 3, []⟩).1,
        ∀ j ∈ ovThunkIds
          (resolve_overrides envW [] inW (some 0) none outW4 ⟨mkSeeded 3, []⟩).1,
          i = j) := by
  have hids : ovThunkIds
      (resolve_overrides envW [] inW (some 0) none outW4 ⟨mkSeeded 3, []⟩).1
      = [1, 2] := rfl
  refine ⟨hids, fun h => ?_⟩
  have h12 := h 1 (by rw [hids]; exact List.mem_cons_self _ _) 2
    (by rw [hids]; exact List.mem_cons_of_mem _ (List.mem_cons_self _ _))
  exact absurd h12 (by decide)

/-- **C4 amended**: for a resolution call with a non-null seed, one fresh
`random.Random(seed)` is allocated at entry (conjunct one is that unfolding)
and every range thunk created at that call's own level closes over exactly
that RNG object — the same object `resolveScalar` hands to plugin `resolve`
calls at this level.  Each recursion into a nested object-typed field
allocates its own RNG, re-seeded with the same seed (see the
counterexample). -/
theorem c4_level_rng_shared (env : Env) (reg : List Nat) (input : InputData)
    (req : Option Req) (s : Nat) (out : OSchema) (st : Store) :
    (resolve_overrides env reg input (some s) req out st =
      resolveFields env reg input (some s) req out (st.allocated.length + 1)
        ⟨st.globalRng, st.allocated ++ [mkSeeded s]⟩) ∧
    (∀ i ∈ levelThunkIds (resolve_overrides env reg input (some s) req out st).1,
      i = st.allocated.length + 1) := by
  refine ⟨rfl, ?_⟩
  intro i hi
  exact resolveFields_levelIds env reg input (some s) req out
    (st.allocated.length + 1) _ i hi

theorem c4_level_rng_shared_witness :
    1 ∈ levelThunkIds
        (resolve_overrides envW [] inW (some 0) none outW4 ⟨mkSeeded 3, []⟩).1 ∧
    1 = (Store.mk (mkSeeded 3) []).allocated.length + 1 :=
  ⟨by
      have : levelThunkIds
          (resolve_overrides envW [] inW (some 0) none outW4 ⟨mkSeeded 3, []⟩).1
          = [1] := rfl
      rw [this]
      exact List.mem_cons_self _ _,
    (c4_level_rng_shared envW [] inW none 0 outW4 ⟨mkSeeded 3, []⟩).2 1
      (by
        have : levelThunkIds
            (resolve_overrides envW [] inW (some 0) none outW4 ⟨mkSeeded 3, []⟩).1
            = [1] := rfl
        rw [this]
        exact List.mem_cons_self _ _)⟩

theorem fieldsOf_map_fst (out : OSchema) :
    (fieldsOf out).map Prod.fst = schemaNames out := by
  induction out with
  | nil => rfl
  | scalar n ms rest ih => rw [fieldsOf, List.map_cons, ih, schemaNames]
  | nestedF n ms sub rest ihsub ih => rw [fieldsOf, List.map_cons, ih, schemaNames]

/-- The field loop of `_validate_output_links` is the concatenation of the
per-field error lists. -/
theorem validateFields_eq_flatMap (reg : List Nat) (inM : InModel)
    (path method outName : String) (out : OSchema) :
    ∀ (outNames : List String) (pfx : String),
      validateFields reg inM path method outName outNames pfx out
        = (fieldsOf out).flatMap (perFieldErrs reg inM path method outName outNames pfx) := by
  induction out with
  | nil => intro outNames pfx; rfl
  | scalar n ms rest ih =>
      intro outNames pfx
      rw [fieldsOf, List.flatMap_cons, validateFields, ih outNames pfx]
      rfl
  | nestedF n ms sub rest ihsub ih =>
      intro outNames pfx
      rw [fieldsOf, List.flatMap_cons, validateFields, ih outNames pfx]
      rfl

/-- In a list with pairwise-distinct keys, if every element other than `x`
contributes nothing, the concatenation is `x`'s contribution. -/
theorem flatMap_eq_single {A B : Type} (key : A → String) (f : A → List B) :
    ∀ (l : List A) (x : A), x ∈ l → (l.map key).Nodup →
      (∀ e ∈ l, key e ≠ key x → f e = []) →
      l.flatMap f = f x := by
  intro l
  induction l with
  | nil => intro x hx; cases hx
  | cons a rest ih =>
      intro x hx hnd hz
      rw [List.map_cons, List.nodup_cons] at hnd
      rw [List.flatMap_cons]
      rcases List.mem_cons.mp hx with rfl | hx'
      · have hrest : rest.flatMap f = [] := by
          refine List.flatMap_eq_nil_iff.mpr ?_
          intro e he
          refine hz e (List.mem_cons_of_mem _ he) ?_
          intro hk
          exact hnd.1 (hk ▸ List.mem_map_of_mem key he)
        rw [hrest, List.append_nil]
      · have hka : key a ≠ key x := by
          intro hk
          exact hnd.1 (hk ▸ List.mem_map_of_mem key hx')
        rw [hz a (List.mem_cons_self _ _) hka, List.nil_append]
        exact ih x hx' hnd.2 (fun e he hk => hz e (List.mem_cons_of_mem _ he) hk)

theorem toList_append (a b : String) : (a ++ b).toList = a.toList ++ b.toList :=
  String.data_append a b

/-- **C7**: an endpoint spec whose output schema has exactly one violating
field — a `FromInput` (the spec's `CopyFromInput`) referencing a name absent
from the input model — and no other violations: `validate_specs` returns
exactly one error string, and that string contains the endpoint's upper-cased
HTTP method, its path, the (dotted, here top-level) output field path, and
the offending reference name. -/
theorem c7_validation_single_error (reg : List Nat) (inM : InModel)
    (path m outName fname typo : String) (out : OSchema) (metas : List LinkMeta)
    (hnd : (schemaNames out).Nodup)
    (hmem : (fname, metas, (none : Option OSchema)) ∈ fieldsOf out)
    (hm : findMeta reg metas = some (.mFromInput typo))
    (htypo : inM.fields.contains typo = false)
    (hothers : ∀ e ∈ fieldsOf out, e.1 ≠ fname →
      perFieldErrs reg inM path ((if m = "" then "GET" else m).toUpper) outName
        (schemaNames out) "" e = []) :
    validate_specs reg [⟨path, [m], inM, some (.single outName out)⟩]
        = [errFromInput ((if m = "" then "GET" else m).toUpper) path fname typo inM.name] ∧
      (((if m = "" then "GET" else m).toUpper).toList
        <:+: (errFromInput ((if m = "" then "GET" else m).toUpper) path fname typo inM.name).toList) ∧
      (path.toList
        <:+: (errFromInput ((if m = "" then "GET" else m).toUpper) path fname typo inM.name).toList) ∧
      (fname.toList
        <:+: (errFromInput ((if m = "" then "GET" else m).toUpper) path fname typo inM.name).toList) ∧
      (typo.toList
        <:+: (errFromInput ((if m = "" then "GET" else m).toUpper) path fname typo inM.name).toList) := by
  set method := (if m = "" then "GET" else m).toUpper with hmethod
  have hvs : validate_specs reg [⟨path, [m], inM, some (.single outName out)⟩]
      = validateFields reg inM path method outName (schemaNames out) "" out := by
    rw [validate_specs]
    simp only [List.flatMap_cons, List.flatMap_nil, List.append_nil]
    rfl
  have hone : validateFields reg inM path method outName (schemaNames out) "" out
      = [errFromInput method path fname typo inM.name] := by
    rw [validateFields_eq_flatMap]
    have := flatMap_eq_single Prod.fst
      (perFieldErrs reg inM path method outName (schemaNames out) "")
      (fieldsOf out) (fname, metas, none) hmem
      (by rw [fieldsOf_map_fst]; exact hnd) hothers
    rw [this]
    simp [perFieldErrs, hm, metaErrs, htypo]
    simpa using htypo
  refine ⟨hvs.trans hone, ?_, ?_, ?_, ?_⟩
  · have h : (errFromInput method path fname typo inM.name).toList
        = [] ++ method.toList ++ (" " ++ path ++ ": output field " ++ pyRepr fname ++
            " uses FromInput(" ++ pyRepr typo ++ ") " ++ "but input model " ++
            pyRepr inM.name ++ " has no field " ++ pyRepr typo).toList := by
      simp [errFromInput, toList_append, List.append_assoc]
    rw [h]
    exact List.infix_append _ _ _
  · have h : (errFromInput method path fname typo inM.name).toList
        = (method ++ " ").toList ++ path.toList ++ (": output field " ++ pyRepr fname ++
            " uses FromInput(" ++ pyRepr typo ++ ") " ++ "but input model " ++
            pyRepr inM.name ++ " has no field " ++ pyRepr typo).toList := by
      simp [errFromInput, toList_append, List.append_assoc]
    rw [h]
    exact List.infix_append _ _ _
  · have h : (errFromInput method path fname typo inM.name).toList
        = (method ++ " " ++ path ++ ": output field " ++ "\u0027").toList ++ fname.toList ++
          ("\u0027" ++ " uses FromInput(" ++ pyRepr typo ++ ") " ++ "but input model " ++
            pyRepr inM.name ++ " has no field " ++ pyRepr typo).toList := by
      simp [errFromInput, pyRepr, toList_append, List.append_assoc]
    rw [h]
    exact List.infix_append _ _ _
  · have h : (errFromInput method path fname typo inM.name).toList
        = (method ++ " " ++ path ++ ": output field " ++ pyRepr fname ++
            " uses FromInput(" ++ "\u0027").toList ++ typo.toList ++
          ("\u0027" ++ ") " ++ "but input model " ++ pyRepr inM.name ++ " has no field " ++
            pyRepr typo).toList := by
      simp [errFromInput, pyRepr, toList_append, List.append_assoc]
    rw [h]
    exact List.infix_append _ _ _

theorem c7_validation_single_error_witness :
    (schemaNames outW7).Nodup ∧
    ("name", [LinkMeta.mFromInput "typo"], (none : Option OSchema)) ∈ fieldsOf outW7 ∧
    inMW.fields.contains "typo" = false ∧
    validate_specs [] [⟨"/u", ["get"], inMW, some (.single "Out" outW7)⟩]
      = [errFromInput ((if "get" = "" then "GET" else "get").toUpper) "/u" "name"
          "typo" inMW.name] :=
  ⟨by decide,
    List.mem_singleton.mpr rfl,
    by decide,
    (c7_validation_single_error [] inMW "/u" "get" "Out" "name" "typo" outW7
      [.mFromInput "typo"] (by decide) (List.mem_singleton.mpr rfl) rfl (by decide)
      (by
        intro e he hne
        rcases List.mem_singleton.mp he with rfl
        exact absurd rfl hne)).1⟩

/-- The per-field dispatch never produces a nested bundle: those come only
from the nested-model branch of the field loop. -/
theorem resolveScalar_not_onested (env : Env) (reg : List Nat) (metas : List LinkMeta)
    (input : InputData) (req : Option Req) (rngId : Nat) (r : RngState) :
    ∀ sub ov, (resolveScalar env reg metas input req rngId r).1
      ≠ some (.onested sub ov) := by
  intro sub ov h
  rw [resolveScalar] at h
  rcases hm : findMeta reg metas with _ | m
  · rw [hm] at h; simp at h
  · rw [hm] at h
    cases m <;> dsimp only at h <;> (repeat' split at h) <;> simp_all

/-- A seeded field loop touches only the allocated RNG objects, never the
global `random` module: its result and allocation trace are independent of
the global RNG's state, which passes through untouched. -/
theorem resolveFields_ginv (env : Env) (reg : List Nat) (input : InputData)
    (s : Nat) (req : Option Req) (out : OSchema) :
    ∀ (rngId : Nat) (t : List RngState) (g₁ g₂ : RngState), 1 ≤ rngId →
      ∃ ov t',
        resolveFields env reg input (some s) req out rngId ⟨g₁, t⟩ = (ov, ⟨g₁, t'⟩) ∧
        resolveFields env reg input (some s) req out rngId ⟨g₂, t⟩ = (ov, ⟨g₂, t'⟩) := by
  induction out with
  | nil => intro rngId t g₁ g₂ h; exact ⟨.onil, t, rfl, rfl⟩
  | scalar n metas rest ih =>
      intro rngId t g₁ g₂ h
      obtain ⟨i, rfl⟩ : ∃ i, rngId = i + 1 := ⟨rngId - 1, by omega⟩
      rcases hpr : resolveScalar env reg metas input req (i + 1)
        (t.getD i (mkSeeded 0)) with ⟨ent, r'⟩
      obtain ⟨rov, t', h1, h2⟩ := ih (i + 1) (t.set i r') g₁ g₂ h
      cases ent with
      | none =>
          refine ⟨rov, t', ?_, ?_⟩
          · rw [resolveFields_scalar_eq]
            dsimp only [Store.get, Store.set]
            rw [hpr]
            dsimp only
            rw [h1]
          · rw [resolveFields_scalar_eq]
            dsimp only [Store.get, Store.set]
            rw [hpr]
            dsimp only
            rw [h2]
      | some e =>
          refine ⟨.consEntry n e rov, t', ?_, ?_⟩
          · rw [resolveFields_scalar_eq]
            dsimp only [Store.get, Store.set]
            rw [hpr]
            dsimp only
            rw [h1]
          · rw [resolveFields_scalar_eq]
            dsimp only [Store.get, Store.set]
            rw [hpr]
            dsimp only
            rw [h2]
  | nestedF n metas sub rest ihsub ih =>
      intro rngId t g₁ g₂ h
      obtain ⟨nov, t₁, hs1, hs2⟩ := ihsub (t.length + 1) (t ++ [mkSeeded s]) g₁ g₂
        (by omega)
      obtain ⟨rov, t₂, hr1, hr2⟩ := ih rngId t₁ g₁ g₂ h
      refine ⟨.onested n sub nov rov, t₂, ?_, ?_⟩
      · rw [resolveFields_nestedF_eq]
        have hu : resolve_overrides env reg input (some s) req sub ⟨g₁, t⟩
            = resolveFields env reg input (some s) req sub (t.length + 1)
                ⟨g₁, t ++ [mkSeeded s]⟩ := rfl
        rw [hu, hs1]
        dsimp only
        rw [hr1]
      · rw [resolveFields_nestedF_eq]
        have hu : resolve_overrides env reg input (some s) req sub ⟨g₂, t⟩
            = resolveFields env reg input (some s) req sub (t.length + 1)
                ⟨g₂, t ++ [mkSeeded s]⟩ := rfl
        rw [hu, hs2]
        dsimp only
        rw [hr2]

/-- Every range thunk of a seeded resolution closes over an allocated RNG
object (id ≥ 1), never the global `random` module (id 0). -/
theorem resolveFields_thunkIds_pos (env : Env) (reg : List Nat) (input : InputData)
    (s : Nat) (req : Option Req) (out : OSchema) :
    ∀ (rngId : Nat) (st : Store), 1 ≤ rngId →
      ∀ i ∈ ovThunkIds (resolveFields env reg input (some s) req out rngId st).1,
        1 ≤ i := by
  induction out with
  | nil => intro rngId st h i hi; simp [resolveFields, ovThunkIds] at hi
  | scalar n metas rest ih =>
      intro rngId st h i hi
      rw [resolveFields_scalar_eq] at hi
      dsimp only at hi
      rcases hsc : (resolveScalar env reg metas input req rngId (st.get rngId)).1
        with _ | e
      · rw [hsc] at hi
        exact ih rngId _ h i hi
      · rw [hsc] at hi
        cases e with
        | othunkRange rid a b =>
            dsimp only [Overrides.consEntry, ovThunkIds] at hi
            rw [List.mem_cons] at hi
            rcases hi with rfl | hi
            · have := resolveScalar_thunkId env reg metas input req rngId
                (st.get rngId) i a b hsc
              omega
            · exact ih rngId _ h i hi
        | oval v =>
            dsimp only [Overrides.consEntry, ovThunkIds] at hi
            exact ih rngId _ h i hi
        | othunkConst v =>
            dsimp only [Overrides.consEntry, ovThunkIds] at hi
            exact ih rngId _ h i hi
        | onested sub ov =>
            exact absurd hsc (resolveScalar_not_onested env reg metas input req
              rngId (st.get rngId) sub ov)
        | ocomputed deps fn =>
            dsimp only [Overrides.consEntry, ovThunkIds] at hi
            exact ih rngId _ h i hi
  | nestedF n metas sub rest ihsub ih =>
      intro rngId st h i hi
      rw [resolveFields_nestedF_eq] at hi
      dsimp only [ovThunkIds] at hi
      rw [List.mem_append] at hi
      rcases hi with hi | hi
      · have hu : resolve_overrides env reg input (some s) req sub st
            = resolveFields env reg input (some s) req sub (st.allocated.length + 1)
                ⟨st.globalRng, st.allocated ++ [mkSeeded s]⟩ := rfl
        rw [hu] at hi
        exact ihsub (st.allocated.length + 1) _ (by omega) i hi
      · exact ih rngId _ h i hi

/-- A seeded evaluation pass touches only allocated RNG objects (all thunk
ids ≥ 1) and seeded nested factories: its result and allocation trace are
independent of the global RNG's state, which passes through untouched. -/
theorem evalPass1_ginv (env : Env) (s : Nat) (ov : Overrides) :
    ∀ (t : List RngState) (g₁ g₂ : RngState),
      (∀ i ∈ ovThunkIds ov, 1 ≤ i) →
      ∃ res? t',
        evalPass1 env (some s) ov ⟨g₁, t⟩ = (res?, ⟨g₁, t'⟩) ∧
        evalPass1 env (some s) ov ⟨g₂, t⟩ = (res?, ⟨g₂, t'⟩) := by
  induction ov with
  | onil => intro t g₁ g₂ _; exact ⟨some ([], []), t, rfl, rfl⟩
  | oval k v rest ih =>
      intro t g₁ g₂ hids
      obtain ⟨res?, t', h1, h2⟩ := ih t g₁ g₂
        (fun i hi => hids i (by rwa [ovThunkIds]))
      rcases res? with _ | ⟨res, comp⟩
      · exact ⟨none, t', by rw [evalPass1, h1], by rw [evalPass1, h2]⟩
      · exact ⟨some ((k, v) :: res, comp), t',
          by rw [evalPass1, h1], by rw [evalPass1, h2]⟩
  | othunkConst k v rest ih =>
      intro t g₁ g₂ hids
      obtain ⟨res?, t', h1, h2⟩ := ih t g₁ g₂
        (fun i hi => hids i (by rwa [ovThunkIds]))
      rcases res? with _ | ⟨res, comp⟩
      · exact ⟨none, t', by rw [evalPass1, h1], by rw [evalPass1, h2]⟩
      · exact ⟨some ((k, v) :: res, comp), t',
          by rw [evalPass1, h1], by rw [evalPass1, h2]⟩
  | othunkRange k rid a b rest ih =>
      intro t g₁ g₂ hids
      have hrid : 1 ≤ rid := hids rid (by rw [ovThunkIds]; exact List.mem_cons_self _ _)
      obtain ⟨j, rfl⟩ : ∃ j, rid = j + 1 := ⟨rid - 1, by omega⟩
      rcases htv : rangeThunkEval a b (t.getD j (mkSeeded 0)) with ⟨tv, r'⟩
      obtain ⟨res?, t', h1, h2⟩ := ih (t.set j r') g₁ g₂
        (fun i hi => hids i (by rw [ovThunkIds]; exact List.mem_cons_of_mem _ hi))
      rcases res? with _ | ⟨res, comp⟩
      · refine ⟨none, t', ?_, ?_⟩
        · rw [evalPass1]
          dsimp only [Store.get, Store.set]
          rw [htv]
          dsimp only
          rw [h1]
        · rw [evalPass1]
          dsimp only [Store.get, Store.set]
          rw [htv]
          dsimp only
          rw [h2]
      · refine ⟨some ((k, .vdt tv) :: res, comp), t', ?_, ?_⟩
        · rw [evalPass1]
          dsimp only [Store.get, Store.set]
          rw [htv]
          dsimp only
          rw [h1]
        · rw [evalPass1]
          dsimp only [Store.get, Store.set]
          rw [htv]
          dsimp only
          rw [h2]
  | onested k sub inner rest ihinner ih =>
      intro t g₁ g₂ hids
      have hin : ∀ i ∈ ovThunkIds inner, 1 ≤ i := fun i hi =>
        hids i (by rw [ovThunkIds]; exact List.mem_append_left _ hi)
      have hre : ∀ i ∈ ovThunkIds rest, 1 ≤ i := fun i hi =>
        hids i (by rw [ovThunkIds]; exact List.mem_append_right _ hi)
      obtain ⟨nres?, tI, hi1, hi2⟩ := ihinner t g₁ g₂ hin
      rcases nres? with _ | ⟨nres, ncomp⟩
      · exact ⟨none, tI, by rw [evalPass1, hi1], by rw [evalPass1, hi2]⟩
      · rcases hc : evalComputed ncomp nres with _ | nvals
        · refine ⟨none, tI, ?_, ?_⟩
          · rw [evalPass1, hi1]
            dsimp only
            rw [hc]
          · rw [evalPass1, hi2]
            dsimp only
            rw [hc]
        · obtain ⟨res?, t', h1, h2⟩ := ih tI g₁ g₂ hre
          rcases res? with _ | ⟨res, comp⟩
          · refine ⟨none, t', ?_, ?_⟩
            · rw [evalPass1, hi1]
              dsimp only
              rw [hc]
              dsimp only
              rw [h1]
            · rw [evalPass1, hi2]
              dsimp only
              rw [hc]
              dsimp only
              rw [h2]
          · refine ⟨some ((k, (factoryBuild env nvals sub (mkSeeded s)).1) :: res,
                comp), t', ?_, ?_⟩
            · rw [evalPass1, hi1]
              dsimp only
              rw [hc]
              dsimp only
              rw [h1]
            · rw [evalPass1, hi2]
              dsimp only
              rw [hc]
              dsimp only
              rw [h2]
  | ocomputed k deps fn rest ih =>
      intro t g₁ g₂ hids
      obtain ⟨res?, t', h1, h2⟩ := ih t g₁ g₂
        (fun i hi => hids i (by rwa [ovThunkIds]))
      rcases res? with _ | ⟨res, comp⟩
      · exact ⟨none, t', by rw [evalPass1, h1], by rw [evalPass1, h2]⟩
      · exact ⟨some (res, (k, deps, fn) :: comp), t',
          by rw [evalPass1, h1], by rw [evalPass1, h2]⟩

/-- `_evaluate_overrides`, seeded, is independent of the global RNG state. -/
theorem evalOverrides_ginv (env : Env) (s : Nat) (ov : Overrides)
    (t : List RngState) (g₁ g₂ : RngState)
    (hids : ∀ i ∈ ovThunkIds ov, 1 ≤ i) :
    ∃ res? t',
      evalOverrides env (some s) ov ⟨g₁, t⟩ = (res?, ⟨g₁, t'⟩) ∧
      evalOverrides env (some s) ov ⟨g₂, t⟩ = (res?, ⟨g₂, t'⟩) := by
  obtain ⟨res?, t', h1, h2⟩ := evalPass1_ginv env s ov t g₁ g₂ hids
  rcases res? with _ | ⟨res, comp⟩
  · exact ⟨none, t', by rw [evalOverrides, h1], by rw [evalOverrides, h2]⟩
  · exact ⟨evalComputed comp res, t', by rw [evalOverrides, h1],
      by rw [evalOverrides, h2]⟩

/-- **C3**: determinism — with the same non-null seed, the same input and the
same output schema, two independent full resolution + override-evaluation +
instance-build cycles produce identical instances, whatever state the
process-global `random` module is in at each run (sampled range values and
plugin-link outputs included: every plugin `resolve` in the embedding is a
pure function of the input map and the RNG state handed to it, which is the
claim's determinism proviso). -/
theorem c3_seeded_determinism (env : Env) (reg : List Nat) (out : OSchema)
    (input : InputData) (s : Nat) (g₁ g₂ : RngState) :
    (build_one env reg out input (some s) g₁).1
      = (build_one env reg out input (some s) g₂).1 := by
  obtain ⟨ov, t', hr1, hr2⟩ := resolveFields_ginv env reg input s none out 1
    [mkSeeded s] g₁ g₂ (by omega)
  have hro1 : resolve_overrides env reg input (some s) none out ⟨g₁, []⟩
      = (ov, ⟨g₁, t'⟩) := hr1
  have hro2 : resolve_overrides env reg input (some s) none out ⟨g₂, []⟩
      = (ov, ⟨g₂, t'⟩) := hr2
  have hids : ∀ i ∈ ovThunkIds ov, 1 ≤ i := by
    have h := resolveFields_thunkIds_pos env reg input s none out 1
      ⟨g₁, [mkSeeded s]⟩ (by omega)
    rw [hr1] at h
    exact h
  obtain ⟨res?, t₂, he1, he2⟩ := evalOverrides_ginv env s ov t' g₁ g₂ hids
  rw [build_one, build_one, hro1, hro2]
  dsimp only
  rw [he1, he2]
  rcases res? with _ | resolved <;> rfl

end Semblance
